import Mathlib

/-!
Shallow embedding of the membership-synchronization core of `main.py`
(classes `FileAppServer` and `FileAppClient`).

Python strings are modelled as Lean `String`; every text algorithm of the
source works on the character-list view `List Char`, so that Python's
`str.split(sep)` (which keeps empty fields), `str.strip()` and `'sep'.join`
are mirrored exactly by `List.splitOn`, whitespace trimming and
`List.intercalate`.  Python `dict` (insertion ordered, unique keys) is an
association list: assignment to an existing key updates the value in place,
assignment to a fresh key appends at the end.  A Python function that can
raise an uncaught exception is embedded as an `Option`-returning function,
`none` standing for the raised exception (no state it would have assigned
afterwards is assigned).
-/

namespace FileApp

abbrev Chars := List Char

/-- One value of the registry's `client_table` dict (`main.py` lines 217-223):
`ip`, `udp_port`, `tcp_port`, `files`, `online`. -/
structure PeerRecord where
  ip : String
  udp_port : Int
  tcp_port : Int
  files : List String
  online : Bool
deriving DecidableEq, Repr

/-- A Python dict from client name to record, insertion order preserved. -/
abbrev Table := List (String × PeerRecord)

/-- Python `k in d` for the table dict. -/
def dictMem (t : Table) (k : String) : Bool :=
  t.any (fun p => p.1 == k)

/-- Python `d[k]` / `d.get(k)` for the table dict (first, and unique, match). -/
def dictGet (t : Table) (k : String) : Option PeerRecord :=
  (t.find? (fun p => p.1 == k)).map Prod.snd

/-- Python `d[k] = v`: an existing key keeps its position and gets the new
value; a fresh key is appended at the end. -/
def dictSet (t : Table) (k : String) (v : PeerRecord) : Table :=
  if dictMem t k then t.map (fun p => if p.1 == k then (k, v) else p)
  else t ++ [(k, v)]

/-- Python `s.split(sep)` for a one-character separator: keeps empty fields,
never returns an empty list. -/
def pySplit (s : String) (c : Char) : List String :=
  (s.toList.splitOn c).map List.asString

/-- Python `s.strip()`: drop leading and trailing whitespace. -/
def trimChars (l : Chars) : Chars :=
  ((l.dropWhile Char.isWhitespace).reverse.dropWhile Char.isWhitespace).reverse

def pyStrip (s : String) : String :=
  (trimChars s.toList).asString

/-- Fuelled digit builder (structural recursion, so that concrete values
reduce inside the kernel); any fuel above the number suffices. -/
def natCharsAux : Nat → Nat → Chars
  | 0, _ => []
  | f + 1, n =>
    if n < 10 then [Char.ofNat (48 + n)]
    else natCharsAux f (n / 10) ++ [Char.ofNat (48 + n % 10)]

/-- Decimal digits of a natural number, most significant first
(the characters Python `str` produces for a non-negative int). -/
def natChars (n : Nat) : Chars :=
  natCharsAux (n + 1) n

theorem natCharsAux_fuel (n : Nat) : ∀ f f' : Nat, n < f → n < f' →
    natCharsAux f n = natCharsAux f' n := by
  induction n using Nat.strong_induction_on with
  | _ n ih =>
    intro f f' hf hf'
    match f, f' with
    | g + 1, g' + 1 =>
      by_cases h10 : n < 10
      · simp only [natCharsAux, if_pos h10]
      · have hlt : n / 10 < n := Nat.div_lt_self (by omega) (by omega)
        simp only [natCharsAux, if_neg h10]
        exact congrArg (fun l => l ++ [Char.ofNat (48 + n % 10)])
          (ih (n / 10) hlt g g' (by omega) (by omega))

theorem natChars_eq (n : Nat) :
    natChars n = if n < 10 then [Char.ofNat (48 + n)]
      else natChars (n / 10) ++ [Char.ofNat (48 + n % 10)] := by
  by_cases h10 : n < 10
  · rw [if_pos h10]
    unfold natChars
    simp only [natCharsAux, if_pos h10]
  · rw [if_neg h10]
    have hlt : n / 10 < n := Nat.div_lt_self (by omega) (by omega)
    unfold natChars
    rw [natCharsAux_fuel (n / 10) (n / 10 + 1) n (Nat.lt_succ_self _) hlt]
    simp only [natCharsAux, if_neg h10]

/-- Python `str(i)` for an int: canonical decimal, `'-'` sign when negative. -/
def intChars (i : Int) : Chars :=
  if i < 0 then '-' :: natChars (-i).toNat else natChars i.toNat

def pyStr (i : Int) : String :=
  (intChars i).asString

def digitVal (c : Char) : Nat := c.toNat - 48

def digitsToNat (l : Chars) : Nat :=
  l.foldl (fun a c => 10 * a + digitVal c) 0

def parseNat (l : Chars) : Option Nat :=
  if l ≠ [] ∧ l.all Char.isDigit = true then some (digitsToNat l) else none

/-- Python `int(s)` restricted to canonical decimal literals (an optional
`'-'` then digits) — the only integer texts this program ever produces; any
other text maps to `none`, modelling the `ValueError` Python raises for
non-numeric text. -/
def parseInt (l : Chars) : Option Int :=
  if l.head? = some '-' then (parseNat l.tail).map (fun n => -(n : Int))
  else (parseNat l).map (fun n => (n : Int))

def pyInt (s : String) : Option Int :=
  parseInt s.toList

/-! ## Wire codec -/

/-- One serialized row, `main.py` line 231:
`f"{name} {info['ip']} {info['udp_port']} {info['tcp_port']} {int(info['online'])} {' '.join(info['files'])}"`.
Note the unconditional space before the joined file list: a record with no
files produces a row ending in a space. -/
def rowChars (name : String) (r : PeerRecord) : Chars :=
  name.toList ++ ' ' :: r.ip.toList
    ++ ' ' :: intChars r.udp_port
    ++ ' ' :: intChars r.tcp_port
    ++ ' ' :: intChars (if r.online then 1 else 0)
    ++ ' ' :: List.intercalate [' '] (r.files.map String.toList)

/-- `FileAppServer.serialize_table` (`main.py` lines 228-233): one row per
record, joined with newlines. -/
def serialize_table (t : Table) : String :=
  (List.intercalate ['\n'] (t.map (fun p => rowChars p.1 p.2))).asString

/-- One row of `FileAppClient.deserialize_table` (`main.py` lines 69-76):
`name, ip, udp_port, tcp_port, online, *files = row.split(' ')` followed by
the `int` conversions and `bool(int(online))`; `none` models the
`ValueError` the unpacking or `int()` raises. -/
def parseRow (row : String) : Option (String × PeerRecord) :=
  match pySplit row ' ' with
  | name :: ip :: udp :: tcp :: online :: files =>
    match pyInt udp, pyInt tcp, pyInt online with
    | some u, some tc, some o =>
        some (name, { ip := ip, udp_port := u, tcp_port := tc,
                      files := files, online := o != 0 })
    | _, _, _ => none
  | _ => none

/-- `FileAppClient.deserialize_table` (`main.py` lines 66-77): strip the
message, split into rows, parse each row into the fresh dict; `none` models
the exception raised at the first malformed row (the whole call fails). -/
def deserialize_table (table_data : String) : Option Table :=
  (pySplit (pyStrip table_data) '\n').foldlM
    (fun acc row => (parseRow row).map (fun p => dictSet acc p.1 p.2)) []

/-! ## Registry (FileAppServer) -/

/-- A UDP datagram the registry sends: destination `(ip, port)` and payload. -/
abbrev Packet := (String × Int) × String

/-- `FileAppServer.broadcast_table` (`main.py` lines 259-266): walk the table
in insertion order; an online record gets `UPDATE <snapshot>`, an offline
record gets `DISCONNECTED <name>`, each at the record's own address. -/
def broadcast_table (t : Table) : List Packet :=
  let table_data := serialize_table t
  t.map (fun p =>
    if p.2.online then ((p.2.ip, p.2.udp_port), "UPDATE " ++ table_data)
    else ((p.2.ip, p.2.udp_port), "DISCONNECTED " ++ p.1))

/-- `FileAppServer.handle_registration` (`main.py` lines 212-226).  The
result pairs the new table with the packets sent; `none` models the
uncaught exception when the payload is not exactly four fields
(`ValueError` on unpacking) or a port is not numeric (`ValueError` in
`int()`).  Note that `is_valid_ip` / `is_valid_port` are never consulted. -/
def handle_registration (t : Table) (message : List String) (addr : String × Int) :
    Option (Table × List Packet) :=
  match message with
  | [name, ip, udp, tcp] =>
    if (dictGet t name).elim false (fun r => r.online) then
      some (t, [(addr, "ERROR")])
    else
      match pyInt udp, pyInt tcp with
      | some u, some tc =>
        let t' := dictSet t name
          { ip := ip, udp_port := u, tcp_port := tc,
            files := ((dictGet t name).map (fun r => r.files)).getD [],
            online := true }
        some (t', (addr, "WELCOME " ++ serialize_table t') :: broadcast_table t')
      | _, _ => none
  | _ => none

/-- The membership test of `main.py` lines 206-208 run left to right over the
offered names: append each name not already present, against the growing
list. -/
def appendNew (files : List String) (offered : List String) : List String :=
  offered.foldl (fun fs f => if f ∈ fs then fs else fs ++ [f]) files

/-- `FileAppServer.handle_offer` (`main.py` lines 200-210): an unknown name
is silently ignored; a known name gets the fresh files appended, then a
broadcast, then an `ACK` to the record's stored address.  `none` models the
`IndexError` of `message[0]` on an empty payload. -/
def handle_offer (t : Table) (message : List String) : Option (Table × List Packet) :=
  match message with
  | [] => none
  | client_name :: offered_files =>
    match dictGet t client_name with
    | some client =>
      let client' := { client with files := appendNew client.files offered_files }
      let t' := dictSet t client_name client'
      some (t', broadcast_table t' ++ [((client.ip, client.udp_port), "ACK")])
    | none => some (t, [])

/-- `FileAppServer.handle_disconnect` (`main.py` lines 235-239): a known name
has its `online` flag set to `False` and a broadcast follows; an unknown
name is ignored.  `none` models the `IndexError` of `message[0]` on an
empty payload. -/
def handle_disconnect (t : Table) (message : List String) : Option (Table × List Packet) :=
  match message with
  | [] => none
  | name :: _ =>
    match dictGet t name with
    | some r =>
      let t' := dictSet t name { r with online := false }
      some (t', broadcast_table t')
    | none => some (t, [])

/-- One iteration of `FileAppServer.listen_udp` (`main.py` lines 184-198) on
a decoded datagram: split on single spaces, dispatch on the first token;
`ACK` and unrecognized kinds fall through with no action.  (`split` never
returns an empty list, so `message[0]` cannot fail; `headD` is that total
reading.)  `none` models an exception escaping the loop body, which has no
handler and kills the loop. -/
def listen_step (t : Table) (data : String) (addr : String × Int) :
    Option (Table × List Packet) :=
  let message := pySplit data ' '
  let kind := message.headD ""
  if kind = "REGISTER" then handle_registration t message.tail addr
  else if kind = "DISCONNECT" then handle_disconnect t message.tail
  else if kind = "ACK" then some (t, [])
  else if kind = "OFFER" then handle_offer t message.tail
  else some (t, [])

/-- `FileAppServer.is_valid_ip` (`main.py` lines 241-247), i.e. whether
`ipaddress.IPv4Address` accepts the text: four dot-separated decimal octets,
each 1-3 digits, value at most 255, no leading zero. -/
def isValidOctet (s : String) : Bool :=
  !s.toList.isEmpty && s.toList.length ≤ 3 && s.toList.all Char.isDigit
    && digitsToNat s.toList ≤ 255 && (s = "0" || !(s.toList.head? = some '0'))

def is_valid_ip (ip : String) : Bool :=
  match pySplit ip '.' with
  | [a, b, c, d] => isValidOctet a && isValidOctet b && isValidOctet c && isValidOctet d
  | _ => false

/-- `FileAppServer.is_valid_port` (`main.py` lines 249-251). -/
def is_valid_port (port : Int) : Bool :=
  1024 ≤ port && port ≤ 65535

/-! ## Peer (FileAppClient) -/

/-- `FileAppClient.update_client_table` (`main.py` lines 60-64): the cached
table is replaced by the deserialized snapshot; when deserialization raises
(`none`), the assignment never happens and the cached table keeps its prior
value. -/
def update_client_table (t : Table) (table_data : String) : Table :=
  match deserialize_table table_data with
  | some t' => t'
  | none => t

/-- The optimistic local mutation of `FileAppClient.offer`
(`main.py` lines 148-151): append each offered filename not already present
to the peer's own cached record. -/
def offer_local (t : Table) (name : String) (filenames : List String) : Table :=
  match dictGet t name with
  | some r => dictSet t name { r with files := appendNew r.files filenames }
  | none => t

/-- `FileAppClient.offer` after the filesystem filter (`main.py` lines
142-163), on the peer's cached table: an empty surviving filename list
returns early with no mutation; otherwise the local table is mutated first,
the OFFER is sent, and `ackReceived` tells whether an `ACK` datagram arrives
inside the 500 ms window — the timeout branch only prints a warning and
never touches the table.  The second component is the message printed. -/
def offer (t : Table) (name : String) (filenames : List String) (ackReceived : Bool) :
    Table × String :=
  if filenames.isEmpty then (t, "No valid files to offer.")
  else
    (offer_local t name filenames,
      if ackReceived then "Offer Message received by Server."
      else "No ACK from Server, please try again later.")

/-! ## Operation sequences over the registry table -/

/-- The three table-mutating datagram kinds, payload fields as the raw
strings `listen_udp` dispatches (already split on spaces). -/
inductive Op where
  | register (name ip udp tcp : String)
  | disconnect (name : String)
  | offer (name : String) (files : List String)

/-- The table component of one registry step for a mutating datagram kind
(the sender address is irrelevant to the table; a raising handler leaves
the table as it was). -/
def applyOp (t : Table) : Op → Table
  | .register name ip udp tcp =>
      ((handle_registration t [name, ip, udp, tcp] ("", 0)).map Prod.fst).getD t
  | .disconnect name => ((handle_disconnect t [name]).map Prod.fst).getD t
  | .offer name files => ((handle_offer t (name :: files)).map Prod.fst).getD t

def applyOps (init : Table) (ops : List Op) : Table :=
  ops.foldl applyOp init

/-! ## Basic facts about the dict model -/

theorem dictGet_nil (k : String) : dictGet [] k = none := rfl

theorem dictGet_cons (p : String × PeerRecord) (ps : Table) (k : String) :
    dictGet (p :: ps) k = if p.1 = k then some p.2 else dictGet ps k := by
  by_cases hp : p.1 = k
  · rw [if_pos hp]
    unfold dictGet
    rw [List.find?_cons_of_pos _ (by simpa using hp)]
    rfl
  · rw [if_neg hp]
    unfold dictGet
    rw [List.find?_cons_of_neg _ (by simpa using hp)]

theorem dictMem_cons (p : String × PeerRecord) (ps : Table) (k : String) :
    dictMem (p :: ps) k = (p.1 == k || dictMem ps k) := by
  simp [dictMem]

theorem dictGet_mem {t : Table} {k : String} {r : PeerRecord}
    (h : dictGet t k = some r) : (k, r) ∈ t := by
  induction t with
  | nil => simp [dictGet_nil] at h
  | cons p ps ih =>
    rw [dictGet_cons] at h
    by_cases hp : p.1 = k
    · rw [if_pos hp] at h
      have hpr : p = (k, r) := by
        cases p with
        | mk a b =>
          simp only at hp
          simp only [Option.some_inj] at h
          simp [hp, h]
      rw [hpr]
      exact List.mem_cons_self _ _
    · rw [if_neg hp] at h
      exact List.mem_cons_of_mem _ (ih h)

theorem dictMem_of_dictGet {t : Table} {k : String} {r : PeerRecord}
    (h : dictGet t k = some r) : dictMem t k = true := by
  have hmem := dictGet_mem h
  unfold dictMem
  rw [List.any_eq_true]
  exact ⟨(k, r), hmem, by simp⟩

theorem dictGet_none_of_not_mem {t : Table} {k : String}
    (h : dictMem t k = false) : dictGet t k = none := by
  induction t with
  | nil => rfl
  | cons p ps ih =>
    rw [dictMem_cons] at h
    simp only [Bool.or_eq_false_iff] at h
    rw [dictGet_cons, if_neg (by simpa using h.1)]
    exact ih h.2

theorem dictMem_false_of_not_key {t : Table} {k : String}
    (h : k ∉ t.map Prod.fst) : dictMem t k = false := by
  unfold dictMem
  rw [Bool.eq_false_iff]
  intro hc
  obtain ⟨p, hp, hpk⟩ := List.any_eq_true.mp hc
  exact h (List.mem_map.mpr ⟨p, hp, by simpa using hpk⟩)

theorem dictSet_of_not_mem {t : Table} {k : String} (v : PeerRecord)
    (h : dictMem t k = false) : dictSet t k v = t ++ [(k, v)] := by
  unfold dictSet
  rw [if_neg (by simp [h])]

theorem dictGet_dictSet_self (t : Table) (k : String) (v : PeerRecord) :
    dictGet (dictSet t k v) k = some v := by
  by_cases hm : dictMem t k = true
  · unfold dictSet
    rw [if_pos hm]
    induction t with
    | nil => simp [dictMem] at hm
    | cons p ps ih =>
      simp only [List.map_cons]
      by_cases hp : p.1 = k
      · rw [if_pos (by simpa using hp), dictGet_cons, if_pos rfl]
      · rw [if_neg (by simpa using hp), dictGet_cons, if_neg hp]
        apply ih
        rw [dictMem_cons] at hm
        simpa [hp] using hm
  · rw [dictSet_of_not_mem v (by simpa using hm)]
    induction t with
    | nil => simp [dictGet_cons]
    | cons p ps ih =>
      rw [dictMem_cons] at hm
      simp only [Bool.or_eq_true, not_or] at hm
      rw [List.cons_append, dictGet_cons, if_neg (by simpa using hm.1)]
      exact ih (by simpa using hm.2)

theorem dictGet_dictSet_ne (t : Table) {k k' : String} (v : PeerRecord)
    (h : k' ≠ k) : dictGet (dictSet t k v) k' = dictGet t k' := by
  by_cases hm : dictMem t k = true
  · unfold dictSet
    rw [if_pos hm]
    induction t with
    | nil => rfl
    | cons p ps ih =>
      simp only [List.map_cons]
      by_cases hps : dictMem ps k = true
      · by_cases hp : p.1 = k
        · rw [if_pos (by simpa using hp), dictGet_cons, dictGet_cons]
          simp only
          rw [if_neg (Ne.symm h), if_neg (by rw [hp]; exact fun hc => h hc.symm)]
          exact ih hps
        · rw [if_neg (by simpa using hp), dictGet_cons, dictGet_cons]
          by_cases hpk : p.1 = k'
          · rw [if_pos hpk, if_pos hpk]
          · rw [if_neg hpk, if_neg hpk]
            exact ih hps
      · have hp : p.1 = k := by
          rw [dictMem_cons] at hm
          rcases Bool.or_eq_true_iff.mp hm with h1 | h1
          · simpa using h1
          · exact absurd h1 (by simpa using hps)
        rw [if_pos (by simpa using hp), dictGet_cons, dictGet_cons]
        simp only
        rw [if_neg (Ne.symm h), if_neg (by rw [hp]; exact fun hc => h hc.symm)]
        have : ps.map (fun q => if q.1 == k then (k, v) else q) = ps.map id := by
          apply List.map_congr_left
          intro q hq
          have hqk : ¬(q.1 == k) = true := by
            intro hc
            exact hps (by unfold dictMem; exact List.any_eq_true.mpr ⟨q, hq, hc⟩)
          simp [hqk]
        rw [this, List.map_id]
  · rw [dictSet_of_not_mem v (by simpa using hm)]
    induction t with
    | nil =>
      simp only [List.nil_append]
      rw [dictGet_cons, if_neg (by simpa using Ne.symm h)]
    | cons p ps ih =>
      rw [dictMem_cons] at hm
      simp only [Bool.or_eq_true, not_or] at hm
      rw [List.cons_append, dictGet_cons, dictGet_cons]
      by_cases hpk : p.1 = k'
      · rw [if_pos hpk, if_pos hpk]
      · rw [if_neg hpk, if_neg hpk]
        exact ih (by simpa using hm.2)

theorem dictSet_keys {t : Table} {k : String} (v : PeerRecord)
    (h : dictMem t k = true) :
    (dictSet t k v).map Prod.fst = t.map Prod.fst := by
  unfold dictSet
  rw [if_pos h, List.map_map]
  have : (Prod.fst ∘ fun p : String × PeerRecord => if p.1 == k then (k, v) else p)
      = fun p : String × PeerRecord => p.1 := by
    funext p
    by_cases hp : p.1 = k
    · simp [hp]
    · simp [hp]
  rw [this]

theorem dictSet_keys_new {t : Table} {k : String} (v : PeerRecord)
    (h : dictMem t k = false) :
    (dictSet t k v).map Prod.fst = t.map Prod.fst ++ [k] := by
  rw [dictSet_of_not_mem v h]
  simp

theorem mem_dictSet {t : Table} {k : String} {v : PeerRecord} {p : String × PeerRecord}
    (h : p ∈ dictSet t k v) : p = (k, v) ∨ p ∈ t := by
  unfold dictSet at h
  by_cases hm : dictMem t k = true
  · rw [if_pos hm] at h
    obtain ⟨q, hq, hfq⟩ := List.mem_map.mp h
    by_cases hqk : q.1 = k
    · left; rw [← hfq]; simp [hqk]
    · right; rw [← hfq]; simpa [hqk] using hq
  · rw [if_neg hm] at h
    rcases List.mem_append.mp h with h | h
    · right; exact h
    · left; simpa using h

theorem dictSet_eq_self {t : Table} {k : String} {r : PeerRecord}
    (hnd : (t.map Prod.fst).Nodup) (hget : dictGet t k = some r) :
    dictSet t k r = t := by
  have hm : dictMem t k = true := dictMem_of_dictGet hget
  unfold dictSet
  rw [if_pos hm]
  induction t with
  | nil => rfl
  | cons p ps ih =>
    simp only [List.map_cons]
    by_cases hp : p.1 = k
    · have hpr : p = (k, r) := by
        rw [dictGet_cons, if_pos hp] at hget
        cases p with
        | mk a b =>
          simp only at hp
          simp only [Option.some_inj] at hget
          simp [hp, hget]
      have hnotin : ∀ q ∈ ps, ¬(q.1 == k) = true := by
        intro q hq hqk
        have : k ∈ ps.map Prod.fst := List.mem_map.mpr ⟨q, hq, by simpa using hqk⟩
        rw [← hp] at this
        simp only [List.map_cons, List.nodup_cons] at hnd
        exact hnd.1 this
      have hmap : ps.map (fun q => if q.1 == k then (k, r) else q) = ps.map id := by
        apply List.map_congr_left
        intro q hq
        simp [hnotin q hq]
      rw [if_pos (by simpa using hp), hmap, List.map_id, ← hpr]
    · rw [if_neg (by simpa using hp)]
      have hget' : dictGet ps k = some r := by
        rwa [dictGet_cons, if_neg hp] at hget
      have hnd' : (ps.map Prod.fst).Nodup := by
        simp only [List.map_cons, List.nodup_cons] at hnd
        exact hnd.2
      rw [ih hnd' hget' (dictMem_of_dictGet hget')]

/-! ## Facts about the file-append loop -/

/-- The fresh filenames an offer contributes, in first-seen order with
duplicates dropped — the specification's description of the append loop. -/
def firstSeen (files offered : List String) : List String :=
  offered.foldl (fun acc f => if f ∈ files ∨ f ∈ acc then acc else acc ++ [f]) []

theorem appendNew_foldl_general (offered files d : List String) :
    offered.foldl (fun fs f => if f ∈ fs then fs else fs ++ [f]) (files ++ d)
      = files ++ offered.foldl (fun acc f => if f ∈ files ∨ f ∈ acc then acc else acc ++ [f]) d := by
  induction offered generalizing d with
  | nil => simp
  | cons g gs ih =>
    simp only [List.foldl_cons]
    by_cases hg : g ∈ files ∨ g ∈ d
    · rw [if_pos (List.mem_append.mpr hg), if_pos hg]
      exact ih d
    · rw [if_neg (fun hc => hg (List.mem_append.mp hc)), if_neg hg, List.append_assoc]
      exact ih (d ++ [g])

theorem appendNew_eq (files offered : List String) :
    appendNew files offered = files ++ firstSeen files offered := by
  have := appendNew_foldl_general offered files []
  simpa [appendNew, firstSeen] using this

theorem firstSeen_eq_nil {files offered : List String}
    (h : ∀ f ∈ offered, f ∈ files) : firstSeen files offered = [] := by
  unfold firstSeen
  induction offered with
  | nil => rfl
  | cons g gs ih =>
    simp only [List.foldl_cons]
    rw [if_pos (Or.inl (h g (by simp)))]
    exact ih (fun f hf => h f (by simp [hf]))

theorem appendNew_eq_self {files offered : List String}
    (h : ∀ f ∈ offered, f ∈ files) : appendNew files offered = files := by
  rw [appendNew_eq, firstSeen_eq_nil h, List.append_nil]

theorem mem_firstSeen_aux (files : List String) (offered : List String) (f : String)
    (acc : List String) (hf : f ∈ offered ∨ f ∈ acc) (hnf : f ∉ files) :
    f ∈ offered.foldl (fun acc g => if g ∈ files ∨ g ∈ acc then acc else acc ++ [g]) acc := by
  induction offered generalizing acc with
  | nil => simpa using hf.resolve_left (by simp)
  | cons g gs ih =>
    simp only [List.foldl_cons]
    apply ih
    by_cases hgacc : g ∈ files ∨ g ∈ acc
    · rw [if_pos hgacc]
      rcases hf with hf | hf
      · rcases List.mem_cons.mp hf with hfg | hf
        · right
          rcases hgacc with h | h
          · exact absurd (hfg ▸ h) hnf
          · exact hfg ▸ h
        · left; exact hf
      · right; exact hf
    · rw [if_neg hgacc]
      rcases hf with hf | hf
      · rcases List.mem_cons.mp hf with hfg | hf
        · right; rw [hfg]; simp
        · left; exact hf
      · right; simp [hf]

theorem mem_appendNew {files offered : List String} {f : String}
    (h : f ∈ offered) : f ∈ appendNew files offered := by
  rw [appendNew_eq, List.mem_append]
  by_cases hff : f ∈ files
  · left; exact hff
  · right; exact mem_firstSeen_aux files offered f [] (Or.inl h) hff

theorem firstSeen_subset_aux (files offered : List String) (x : String)
    (acc : List String)
    (h : x ∈ offered.foldl (fun acc g => if g ∈ files ∨ g ∈ acc then acc else acc ++ [g]) acc) :
    x ∈ acc ∨ x ∈ offered := by
  induction offered generalizing acc with
  | nil => left; simpa using h
  | cons g gs ih =>
    simp only [List.foldl_cons] at h
    rcases ih _ h with hx | hx
    · by_cases hg : g ∈ files ∨ g ∈ acc
      · rw [if_pos hg] at hx; left; exact hx
      · rw [if_neg hg] at hx
        rcases List.mem_append.mp hx with hx | hx
        · left; exact hx
        · right; simp at hx; simp [hx]
    · right; simp [hx]

theorem mem_of_mem_firstSeen {files offered : List String} {x : String}
    (h : x ∈ firstSeen files offered) : x ∈ offered := by
  rcases firstSeen_subset_aux files offered x [] h with hx | hx
  · simp at hx
  · exact hx

/-! ## Evaluation lemmas for the handlers -/

theorem handle_registration_online {t : Table} {name ip udp tcp : String} {addr : String × Int}
    (hon : (dictGet t name).elim false (fun r => r.online) = true) :
    handle_registration t [name, ip, udp, tcp] addr = some (t, [(addr, "ERROR")]) := by
  simp only [handle_registration, hon]
  rfl

theorem handle_registration_success {t : Table} {name ip udp tcp : String} {addr : String × Int}
    {u tc : Int}
    (hon : (dictGet t name).elim false (fun r => r.online) = false)
    (hu : pyInt udp = some u) (htc : pyInt tcp = some tc) :
    handle_registration t [name, ip, udp, tcp] addr =
      some (dictSet t name
              { ip := ip, udp_port := u, tcp_port := tc,
                files := ((dictGet t name).map (fun r => r.files)).getD [],
                online := true },
            (addr, "WELCOME " ++ serialize_table (dictSet t name
              { ip := ip, udp_port := u, tcp_port := tc,
                files := ((dictGet t name).map (fun r => r.files)).getD [],
                online := true }))
              :: broadcast_table (dictSet t name
              { ip := ip, udp_port := u, tcp_port := tc,
                files := ((dictGet t name).map (fun r => r.files)).getD [],
                online := true })) := by
  simp only [handle_registration, hon, hu, htc]
  rfl

theorem handle_registration_raise_udp {t : Table} {name ip udp tcp : String} {addr : String × Int}
    (hon : (dictGet t name).elim false (fun r => r.online) = false)
    (hu : pyInt udp = none) :
    handle_registration t [name, ip, udp, tcp] addr = none := by
  simp only [handle_registration, hon, hu]
  rfl

theorem handle_registration_raise_tcp {t : Table} {name ip udp tcp : String} {addr : String × Int}
    {u : Int}
    (hon : (dictGet t name).elim false (fun r => r.online) = false)
    (hu : pyInt udp = some u) (htc : pyInt tcp = none) :
    handle_registration t [name, ip, udp, tcp] addr = none := by
  simp only [handle_registration, hon, hu, htc]
  rfl

theorem handle_offer_known {t : Table} {cn : String} {fs : List String} {client : PeerRecord}
    (hget : dictGet t cn = some client) :
    handle_offer t (cn :: fs) =
      some (dictSet t cn { client with files := appendNew client.files fs },
            broadcast_table (dictSet t cn { client with files := appendNew client.files fs })
              ++ [((client.ip, client.udp_port), "ACK")]) := by
  simp only [handle_offer, hget]

theorem handle_offer_unknown {t : Table} {cn : String} {fs : List String}
    (hget : dictGet t cn = none) :
    handle_offer t (cn :: fs) = some (t, []) := by
  simp only [handle_offer, hget]

theorem handle_disconnect_known {t : Table} {n : String} {rest : List String} {r : PeerRecord}
    (hget : dictGet t n = some r) :
    handle_disconnect t (n :: rest) =
      some (dictSet t n { r with online := false },
            broadcast_table (dictSet t n { r with online := false })) := by
  simp only [handle_disconnect, hget]

theorem handle_disconnect_unknown {t : Table} {n : String} {rest : List String}
    (hget : dictGet t n = none) :
    handle_disconnect t (n :: rest) = some (t, []) := by
  simp only [handle_disconnect, hget]

theorem getD_map_fst (a : Table) (b : List Packet) (t0 : Table) :
    (Option.map Prod.fst (some (a, b))).getD t0 = a := rfl

/-! ## Decimal round trip -/

theorem char_toNat_digit {n : Nat} (h : n < 10) :
    (Char.ofNat (48 + n)).toNat = 48 + n := by
  interval_cases n <;> decide

theorem char_isDigit_digit {n : Nat} (h : n < 10) :
    (Char.ofNat (48 + n)).isDigit = true := by
  interval_cases n <;> decide

theorem natChars_ne_nil (n : Nat) : natChars n ≠ [] := by
  rw [natChars_eq]
  by_cases h10 : n < 10
  · rw [if_pos h10]
    simp
  · rw [if_neg h10]
    simp

theorem natChars_all_digit (n : Nat) : ∀ c ∈ natChars n, c.isDigit = true := by
  induction n using Nat.strong_induction_on with
  | _ n ih =>
    rw [natChars_eq]
    by_cases h10 : n < 10
    · rw [if_pos h10]
      intro c hc
      rw [List.mem_singleton] at hc
      rw [hc]
      exact char_isDigit_digit h10
    · rw [if_neg h10]
      intro c hc
      rcases List.mem_append.mp hc with hc | hc
      · exact ih (n / 10) (Nat.div_lt_self (by omega) (by omega)) c hc
      · rw [List.mem_singleton] at hc
        rw [hc]
        exact char_isDigit_digit (Nat.mod_lt _ (by omega))

theorem digit_not_whitespace {c : Char} (h : c.isDigit = true) :
    c.isWhitespace = false := by
  cases hws : c.isWhitespace with
  | false => rfl
  | true =>
    have hc : ((c = ' ' ∨ c = '\t') ∨ c = '\r') ∨ c = '\n' := by
      simpa [Char.isWhitespace, Bool.or_eq_true, decide_eq_true_eq] using hws
    rcases hc with ((rfl | rfl) | rfl) | rfl <;> exact absurd h (by decide)

theorem digitsToNat_append (l : Chars) (c : Char) :
    digitsToNat (l ++ [c]) = 10 * digitsToNat l + digitVal c := by
  unfold digitsToNat
  rw [List.foldl_append]
  rfl

theorem digitsToNat_natChars (n : Nat) : digitsToNat (natChars n) = n := by
  induction n using Nat.strong_induction_on with
  | _ n ih =>
    rw [natChars_eq]
    by_cases h10 : n < 10
    · rw [if_pos h10]
      show 10 * 0 + digitVal (Char.ofNat (48 + n)) = n
      unfold digitVal
      rw [char_toNat_digit h10]
      omega
    · rw [if_neg h10, digitsToNat_append,
        ih (n / 10) (Nat.div_lt_self (by omega) (by omega))]
      unfold digitVal
      rw [char_toNat_digit (Nat.mod_lt _ (by omega))]
      omega

theorem parseNat_natChars (n : Nat) : parseNat (natChars n) = some n := by
  unfold parseNat
  rw [if_pos ⟨natChars_ne_nil n, List.all_eq_true.mpr (natChars_all_digit n)⟩,
    digitsToNat_natChars]

theorem natChars_head_not_minus (n : Nat) : (natChars n).head? ≠ some '-' := by
  intro hc
  have hne := natChars_ne_nil n
  cases hl : natChars n with
  | nil => exact hne hl
  | cons c cs =>
    rw [hl] at hc
    simp only [List.head?_cons, Option.some_inj] at hc
    have hd : c.isDigit = true := natChars_all_digit n c (by rw [hl]; simp)
    rw [hc] at hd
    exact absurd hd (by decide)

theorem parseInt_intChars (i : Int) : parseInt (intChars i) = some i := by
  unfold intChars parseInt
  by_cases hneg : i < 0
  · rw [if_pos hneg]
    simp only [List.head?_cons, if_pos rfl, List.tail_cons, parseNat_natChars]
    show some (-(((-i).toNat : Nat) : Int)) = some i
    congr 1
    omega
  · rw [if_neg hneg, if_neg (natChars_head_not_minus i.toNat), parseNat_natChars]
    show some ((i.toNat : Nat) : Int) = some i
    congr 1
    omega

theorem mem_intChars_digit_or_minus {i : Int} {c : Char} (h : c ∈ intChars i) :
    c = '-' ∨ c.isDigit = true := by
  unfold intChars at h
  by_cases hneg : i < 0
  · rw [if_pos hneg] at h
    rcases List.mem_cons.mp h with hc | hc
    · left; exact hc
    · right; exact natChars_all_digit _ c hc
  · rw [if_neg hneg] at h
    right
    exact natChars_all_digit _ c h

theorem space_not_mem_intChars (i : Int) : ' ' ∉ intChars i := by
  intro hc
  rcases mem_intChars_digit_or_minus hc with h | h
  · exact absurd h (by decide)
  · exact absurd h (by decide)

theorem newline_not_mem_intChars (i : Int) : '\n' ∉ intChars i := by
  intro hc
  rcases mem_intChars_digit_or_minus hc with h | h
  · exact absurd h (by decide)
  · exact absurd h (by decide)

theorem intChars_ne_nil (i : Int) : intChars i ≠ [] := by
  unfold intChars
  by_cases hneg : i < 0
  · rw [if_pos hneg]
    simp
  · rw [if_neg hneg]
    exact natChars_ne_nil _

theorem natChars_getLast_digit (m : Nat) :
    ∃ c, (natChars m).getLast? = some c ∧ c.isDigit = true := by
  have hne := natChars_ne_nil m
  refine ⟨(natChars m).getLast hne, List.getLast?_eq_getLast _ hne, ?_⟩
  exact natChars_all_digit m _ (List.getLast_mem hne)

theorem intChars_getLast_digit (i : Int) :
    ∃ c, (intChars i).getLast? = some c ∧ c.isDigit = true := by
  unfold intChars
  by_cases hneg : i < 0
  · rw [if_pos hneg]
    obtain ⟨c, hc, hd⟩ := natChars_getLast_digit (-i).toNat
    refine ⟨c, ?_, hd⟩
    cases hl : natChars (-i).toNat with
    | nil => exact absurd hl (natChars_ne_nil _)
    | cons d ds =>
      rw [hl] at hc
      rw [List.getLast?_cons_cons]
      exact hc
  · rw [if_neg hneg]
    exact natChars_getLast_digit i.toNat

/-! ## Trim and intercalate structure -/

theorem dropWhile_of_head_not_ws {l : Chars} {c : Char}
    (hh : l.head? = some c) (hc : c.isWhitespace = false) :
    l.dropWhile Char.isWhitespace = l := by
  cases l with
  | nil => simp at hh
  | cons a as =>
    simp only [List.head?_cons, Option.some_inj] at hh
    rw [List.dropWhile_cons, hh, hc]
    simp

theorem trimChars_eq_self {l : Chars} {c d : Char}
    (hh : l.head? = some c) (hc : c.isWhitespace = false)
    (hg : l.getLast? = some d) (hd : d.isWhitespace = false) :
    trimChars l = l := by
  unfold trimChars
  rw [dropWhile_of_head_not_ws hh hc]
  rw [dropWhile_of_head_not_ws (by rw [List.head?_reverse]; exact hg) hd]
  exact List.reverse_reverse l

theorem trimChars_append_space {l : Chars} {c d : Char}
    (hh : l.head? = some c) (hc : c.isWhitespace = false)
    (hg : l.getLast? = some d) (hd : d.isWhitespace = false) :
    trimChars (l ++ [' ']) = l := by
  unfold trimChars
  have h1 : (l ++ [' ']).dropWhile Char.isWhitespace = l ++ [' '] := by
    apply dropWhile_of_head_not_ws (c := c) _ hc
    rw [List.head?_append, hh]
    rfl
  rw [h1]
  have h2 : (l ++ [' ']).reverse = ' ' :: l.reverse := by
    rw [List.reverse_append]
    rfl
  rw [h2, List.dropWhile_cons]
  have hws : (' ' : Char).isWhitespace = true := by decide
  rw [hws]
  simp only [if_true]
  rw [dropWhile_of_head_not_ws (by rw [List.head?_reverse]; exact hg) hd]
  exact List.reverse_reverse l

theorem intercalate_singleton₂ {α : Type} (sep : List α) (a : List α) :
    List.intercalate sep [a] = a := by
  simp [List.intercalate]

theorem intercalate_cons₂ {α : Type} (sep a : List α) (l : List (List α)) (h : l ≠ []) :
    List.intercalate sep (a :: l) = a ++ sep ++ List.intercalate sep l := by
  cases l with
  | nil => exact absurd rfl h
  | cons b bs =>
    simp [List.intercalate, List.intersperse, List.append_assoc]

theorem intercalate_append_last {α : Type} (sep : List α) (l : List (List α)) (a b : List α) :
    List.intercalate sep (l ++ [a ++ b]) = List.intercalate sep (l ++ [a]) ++ b := by
  induction l with
  | nil =>
    simp only [List.nil_append]
    rw [intercalate_singleton₂, intercalate_singleton₂]
  | cons x xs ih =>
    rw [List.cons_append, List.cons_append,
      intercalate_cons₂ sep x _ (by simp),
      intercalate_cons₂ sep x _ (by simp),
      ih, List.append_assoc, List.append_assoc, List.append_assoc]

theorem intercalate_head {α : Type} (sep a : List α) (l : List (List α)) (ha : a ≠ []) :
    (List.intercalate sep (a :: l)).head? = a.head? := by
  cases l with
  | nil => rw [intercalate_singleton₂]
  | cons b bs =>
    rw [intercalate_cons₂ sep a _ (by simp)]
    cases a with
    | nil => exact absurd rfl ha
    | cons c cs => rfl

theorem intercalate_concat_getLast {α : Type} (sep : List α) (l : List (List α))
    (a : List α) (ha : a ≠ []) :
    (List.intercalate sep (l ++ [a])).getLast? = a.getLast? := by
  have hdecomp : a.dropLast ++ [a.getLast ha] = a := List.dropLast_append_getLast ha
  calc (List.intercalate sep (l ++ [a])).getLast?
      = (List.intercalate sep (l ++ [a.dropLast ++ [a.getLast ha]])).getLast? := by
        rw [hdecomp]
    _ = (List.intercalate sep (l ++ [a.dropLast]) ++ [a.getLast ha]).getLast? := by
        rw [intercalate_append_last]
    _ = some (a.getLast ha) := List.getLast?_concat _
    _ = a.getLast? := (List.getLast?_eq_getLast a ha).symm

/-! ## Well-formed tokens and rows -/

/-- A protocol token as realistic inputs produce it: nonempty, and free of
whitespace (in particular free of the space and newline separators). -/
def wfTok (s : String) : Prop :=
  s.toList ≠ [] ∧ ∀ c ∈ s.toList, c.isWhitespace = false

def wfRecord (name : String) (r : PeerRecord) : Prop :=
  wfTok name ∧ wfTok r.ip ∧ ∀ f ∈ r.files, wfTok f

def wfTable (t : Table) : Prop :=
  (∀ p ∈ t, wfRecord p.1 p.2) ∧ (t.map Prod.fst).Nodup

/-- Well-formedness of one datagram's fields. -/
def Op.wf : Op → Prop
  | .register name ip _ _ => wfTok name ∧ wfTok ip
  | .disconnect _ => True
  | .offer _ files => ∀ f ∈ files, wfTok f

/-- The five fixed fields of a serialized row, without the file list. -/
def rowCore (name : String) (r : PeerRecord) : Chars :=
  name.toList ++ ' ' :: r.ip.toList
    ++ ' ' :: intChars r.udp_port
    ++ ' ' :: intChars r.tcp_port
    ++ ' ' :: intChars (if r.online then 1 else 0)

theorem rowChars_decomp (name : String) (r : PeerRecord) :
    rowChars name r
      = rowCore name r ++ ' ' :: List.intercalate [' '] (r.files.map String.toList) := rfl

theorem rowChars_files_nil (name : String) (r : PeerRecord) (h : r.files = []) :
    rowChars name r = rowCore name r ++ [' '] := by
  rw [rowChars_decomp, h]
  rfl

theorem rowCore_intercalate (name : String) (r : PeerRecord) :
    rowCore name r = List.intercalate [' ']
      [name.toList, r.ip.toList, intChars r.udp_port, intChars r.tcp_port,
       intChars (if r.online then 1 else 0)] := by
  rw [intercalate_cons₂ _ _ _ (by simp), intercalate_cons₂ _ _ _ (by simp),
    intercalate_cons₂ _ _ _ (by simp), intercalate_cons₂ _ _ _ (by simp),
    intercalate_singleton₂]
  simp [rowCore, List.append_assoc]

theorem rowChars_intercalate (name : String) (r : PeerRecord)
    (h : r.files.map String.toList ≠ []) :
    rowChars name r = List.intercalate [' ']
      (name.toList :: r.ip.toList :: intChars r.udp_port :: intChars r.tcp_port ::
        intChars (if r.online then 1 else 0) :: r.files.map String.toList) := by
  rw [intercalate_cons₂ _ _ _ (by simp), intercalate_cons₂ _ _ _ (by simp),
    intercalate_cons₂ _ _ _ (by simp), intercalate_cons₂ _ _ _ (by simp),
    intercalate_cons₂ _ _ _ h]
  simp [rowChars, List.append_assoc]

theorem getLast?_append_right {α : Type} {l m : List α} {c : α}
    (h : m.getLast? = some c) : (l ++ m).getLast? = some c := by
  rw [List.getLast?_append, h]
  rfl

theorem head?_or_of_ne_nil {α : Type} {l : List α} (m : List α) (h : l ≠ []) :
    (l ++ m).head? = l.head? := by
  rw [List.head?_append]
  cases l with
  | nil => exact absurd rfl h
  | cons c cs => rfl

theorem rowCore_head (name : String) (r : PeerRecord) (hn : name.toList ≠ []) :
    (rowCore name r).head? = name.toList.head? := by
  unfold rowCore
  rw [List.append_assoc, List.append_assoc, List.append_assoc]
  exact head?_or_of_ne_nil _ hn

theorem rowChars_head (name : String) (r : PeerRecord) (hn : name.toList ≠ []) :
    (rowChars name r).head? = name.toList.head? := by
  rw [rowChars_decomp, head?_or_of_ne_nil _ (by
    intro hc
    rw [rowCore_intercalate] at hc
    have := congrArg List.head? hc
    rw [intercalate_head _ _ _ hn] at this
    cases hl : name.toList with
    | nil => exact hn hl
    | cons c cs => rw [hl] at this; simp at this)]
  exact rowCore_head name r hn

theorem rowCore_getLast (name : String) (r : PeerRecord) :
    ∃ c, (rowCore name r).getLast? = some c ∧ c.isWhitespace = false := by
  obtain ⟨c, hc, hd⟩ := intChars_getLast_digit (if r.online then (1 : Int) else 0)
  refine ⟨c, ?_, digit_not_whitespace hd⟩
  unfold rowCore
  apply getLast?_append_right
  rw [show (' ' :: intChars (if r.online then (1 : Int) else 0))
      = [' '] ++ intChars (if r.online then (1 : Int) else 0) from rfl]
  exact getLast?_append_right hc

theorem rowChars_getLast (name : String) (r : PeerRecord) (hne : r.files ≠ [])
    (hwf : ∀ f ∈ r.files, wfTok f) :
    ∃ c, (rowChars name r).getLast? = some c ∧ c.isWhitespace = false := by
  have hfne : r.files.map String.toList ≠ [] := by simpa using hne
  have hglast_mem : (r.files.map String.toList).getLast hfne ∈ r.files.map String.toList :=
    List.getLast_mem hfne
  obtain ⟨g, hg, hgl⟩ := List.mem_map.mp hglast_mem
  have hgwf := hwf g hg
  have hgne : (r.files.map String.toList).getLast hfne ≠ [] := by
    rw [← hgl]
    exact hgwf.1
  have h1 : (List.intercalate [' '] (r.files.map String.toList)).getLast?
      = ((r.files.map String.toList).getLast hfne).getLast? := by
    conv_lhs => rw [← List.dropLast_append_getLast hfne]
    exact intercalate_concat_getLast [' '] _ _ hgne
  have hc : ((r.files.map String.toList).getLast hfne).getLast?
      = some (((r.files.map String.toList).getLast hfne).getLast hgne) :=
    List.getLast?_eq_getLast _ hgne
  have hcmem : ((r.files.map String.toList).getLast hfne).getLast hgne
      ∈ (r.files.map String.toList).getLast hfne := List.getLast_mem hgne
  have hcws : (((r.files.map String.toList).getLast hfne).getLast hgne).isWhitespace = false := by
    apply hgwf.2
    rw [hgl]
    exact hcmem
  refine ⟨_, ?_, hcws⟩
  rw [rowChars_decomp]
  apply getLast?_append_right
  rw [show (' ' :: List.intercalate [' '] (r.files.map String.toList))
      = [' '] ++ List.intercalate [' '] (r.files.map String.toList) from rfl]
  apply getLast?_append_right
  rw [h1]
  exact hc

theorem newline_not_mem_rowCore {name : String} {r : PeerRecord}
    (hwf : wfRecord name r) : '\n' ∉ rowCore name r := by
  intro hc
  unfold rowCore at hc
  simp only [List.mem_append, List.mem_cons] at hc
  rcases hc with ((((hc | hc) | hc) | hc) | hc)
  · exact absurd (hwf.1.2 _ hc) (by decide)
  · rcases hc with hc | hc
    · exact absurd hc (by decide)
    · exact absurd (hwf.2.1.2 _ hc) (by decide)
  · rcases hc with hc | hc
    · exact absurd hc (by decide)
    · exact newline_not_mem_intChars _ hc
  · rcases hc with hc | hc
    · exact absurd hc (by decide)
    · exact newline_not_mem_intChars _ hc
  · rcases hc with hc | hc
    · exact absurd hc (by decide)
    · exact newline_not_mem_intChars _ hc

theorem mem_intercalate_single {α : Type} [DecidableEq α] {x s : α} {ls : List (List α)}
    (h : x ∈ List.intercalate [s] ls) : x = s ∨ ∃ l ∈ ls, x ∈ l := by
  induction ls with
  | nil => simp [List.intercalate] at h
  | cons a l ih =>
    cases l with
    | nil =>
      rw [intercalate_singleton₂] at h
      right
      exact ⟨a, by simp, h⟩
    | cons b bs =>
      rw [intercalate_cons₂ _ _ _ (by simp)] at h
      rcases List.mem_append.mp h with h1 | h1
      · rcases List.mem_append.mp h1 with h2 | h2
        · right; exact ⟨a, by simp, h2⟩
        · left; simpa using h2
      · rcases ih h1 with h2 | ⟨m, hm, hxm⟩
        · left; exact h2
        · right; exact ⟨m, by simp [hm], hxm⟩

theorem newline_not_mem_rowChars {name : String} {r : PeerRecord}
    (hwf : wfRecord name r) : '\n' ∉ rowChars name r := by
  intro hc
  rw [rowChars_decomp] at hc
  rcases List.mem_append.mp hc with hc | hc
  · exact newline_not_mem_rowCore hwf hc
  · rcases List.mem_cons.mp hc with hc | hc
    · exact absurd hc (by decide)
    · rcases mem_intercalate_single hc with hc | ⟨m, hm, hxm⟩
      · exact absurd hc (by decide)
      · obtain ⟨f, hf, rfl⟩ := List.mem_map.mp hm
        exact absurd ((hwf.2.2 f hf).2 _ hxm) (by decide)

/-! ## Row parsing round trip -/

theorem pySplit_asString (l : Chars) (c : Char) :
    pySplit l.asString c = (l.splitOn c).map List.asString := by
  unfold pySplit
  rw [List.toList_asString]

theorem space_not_mem_of_wfTok {s : String} (h : wfTok s) : ' ' ∉ s.toList := by
  intro hc
  exact absurd (h.2 _ hc) (by decide)

theorem pyInt_pyStr (i : Int) : pyInt (pyStr i) = some i := by
  unfold pyInt pyStr
  rw [List.toList_asString]
  exact parseInt_intChars i

theorem online_roundtrip (b : Bool) : ((if b then (1 : Int) else 0) != 0) = b := by
  cases b <;> rfl

theorem parseRow_cons {row : String} {nm ip uS tcS oS : String} {fls : List String}
    {u tc o : Int}
    (hsplit : pySplit row ' ' = nm :: ip :: uS :: tcS :: oS :: fls)
    (hu : pyInt uS = some u) (htc : pyInt tcS = some tc) (ho : pyInt oS = some o) :
    parseRow row = some (nm, { ip := ip, udp_port := u, tcp_port := tc,
                               files := fls, online := o != 0 }) := by
  simp only [parseRow, hsplit, hu, htc, ho]

theorem parseRow_rowChars {name : String} {r : PeerRecord}
    (hwf : wfRecord name r) (hne : r.files ≠ []) :
    parseRow (rowChars name r).asString = some (name, r) := by
  have hfne : r.files.map String.toList ≠ [] := by simpa using hne
  have hfields : ∀ l ∈ (name.toList :: r.ip.toList :: intChars r.udp_port
      :: intChars r.tcp_port :: intChars (if r.online then 1 else 0)
      :: r.files.map String.toList), ' ' ∉ l := by
    intro l hl
    simp only [List.mem_cons] at hl
    rcases hl with rfl | rfl | rfl | rfl | rfl | hl
    · exact space_not_mem_of_wfTok hwf.1
    · exact space_not_mem_of_wfTok hwf.2.1
    · exact space_not_mem_intChars _
    · exact space_not_mem_intChars _
    · exact space_not_mem_intChars _
    · obtain ⟨f, hf, rfl⟩ := List.mem_map.mp hl
      exact space_not_mem_of_wfTok (hwf.2.2 f hf)
  have hsplit : pySplit (rowChars name r).asString ' '
      = name :: r.ip :: pyStr r.udp_port :: pyStr r.tcp_port
        :: pyStr (if r.online then 1 else 0) :: r.files := by
    rw [pySplit_asString, rowChars_intercalate name r hfne,
      List.splitOn_intercalate _ ' ' hfields (by simp)]
    simp only [List.map_cons, String.asString_toList, List.map_map]
    have hco : (List.asString ∘ String.toList) = id := by
      funext s
      exact String.asString_toList s
    rw [hco, List.map_id]
    rfl
  rw [parseRow_cons hsplit (pyInt_pyStr _) (pyInt_pyStr _) (pyInt_pyStr _)]
  rw [online_roundtrip]

theorem parseRow_rowCore {name : String} {r : PeerRecord}
    (hwf : wfRecord name r) (hfe : r.files = []) :
    parseRow (rowCore name r).asString = some (name, r) := by
  have hfields : ∀ l ∈ ([name.toList, r.ip.toList, intChars r.udp_port,
      intChars r.tcp_port, intChars (if r.online then 1 else 0)] : List Chars), ' ' ∉ l := by
    intro l hl
    simp only [List.mem_cons, List.not_mem_nil, or_false] at hl
    rcases hl with rfl | rfl | rfl | rfl | rfl
    · exact space_not_mem_of_wfTok hwf.1
    · exact space_not_mem_of_wfTok hwf.2.1
    · exact space_not_mem_intChars _
    · exact space_not_mem_intChars _
    · exact space_not_mem_intChars _
  have hsplit : pySplit (rowCore name r).asString ' '
      = name :: r.ip :: pyStr r.udp_port :: pyStr r.tcp_port
        :: pyStr (if r.online then 1 else 0) :: [] := by
    rw [pySplit_asString, rowCore_intercalate,
      List.splitOn_intercalate _ ' ' hfields (by simp)]
    simp only [List.map_cons, List.map_nil, String.asString_toList]
    rfl
  rw [parseRow_cons hsplit (pyInt_pyStr _) (pyInt_pyStr _) (pyInt_pyStr _)]
  rw [online_roundtrip, ← hfe]

/-! ## Snapshot structure -/

/-- The characters that survive the receiver's strip for one row: the last
row of a snapshot loses its trailing space when its file list is empty. -/
def cleanRow (name : String) (r : PeerRecord) : Chars :=
  if r.files = [] then rowCore name r else rowChars name r

theorem parseRow_cleanRow {name : String} {r : PeerRecord} (hwf : wfRecord name r) :
    parseRow (cleanRow name r).asString = some (name, r) := by
  unfold cleanRow
  by_cases hfe : r.files = []
  · rw [if_pos hfe]
    exact parseRow_rowCore hwf hfe
  · rw [if_neg hfe]
    exact parseRow_rowChars hwf hfe

theorem rowChars_head_nonws {name : String} {r : PeerRecord} (hwf : wfRecord name r) :
    ∃ c, (rowChars name r).head? = some c ∧ c.isWhitespace = false := by
  have hn := hwf.1.1
  cases hl : name.toList with
  | nil => exact absurd hl hn
  | cons c cs =>
    refine ⟨c, ?_, ?_⟩
    · rw [rowChars_head name r hn, hl]
      rfl
    · exact hwf.1.2 c (by rw [hl]; simp)

theorem rowCore_head_nonws {name : String} {r : PeerRecord} (hwf : wfRecord name r) :
    ∃ c, (rowCore name r).head? = some c ∧ c.isWhitespace = false := by
  have hn := hwf.1.1
  cases hl : name.toList with
  | nil => exact absurd hl hn
  | cons c cs =>
    refine ⟨c, ?_, ?_⟩
    · rw [rowCore_head name r hn, hl]
      rfl
    · exact hwf.1.2 c (by rw [hl]; simp)

theorem cleanRow_head_nonws {name : String} {r : PeerRecord} (hwf : wfRecord name r) :
    ∃ c, (cleanRow name r).head? = some c ∧ c.isWhitespace = false := by
  unfold cleanRow
  by_cases hfe : r.files = []
  · rw [if_pos hfe]
    exact rowCore_head_nonws hwf
  · rw [if_neg hfe]
    exact rowChars_head_nonws hwf

theorem cleanRow_getLast_nonws {name : String} {r : PeerRecord} (hwf : wfRecord name r) :
    ∃ c, (cleanRow name r).getLast? = some c ∧ c.isWhitespace = false := by
  unfold cleanRow
  by_cases hfe : r.files = []
  · rw [if_pos hfe]
    exact rowCore_getLast name r
  · rw [if_neg hfe]
    exact rowChars_getLast name r hfe hwf.2.2

theorem newline_not_mem_cleanRow {name : String} {r : PeerRecord}
    (hwf : wfRecord name r) : '\n' ∉ cleanRow name r := by
  unfold cleanRow
  by_cases hfe : r.files = []
  · rw [if_pos hfe]
    exact newline_not_mem_rowCore hwf
  · rw [if_neg hfe]
    exact newline_not_mem_rowChars hwf

theorem ne_nil_of_head?_some {α : Type} {l : List α} {c : α} (h : l.head? = some c) :
    l ≠ [] := by
  intro h0
  rw [h0] at h
  simp at h

theorem rows_head_nonws {rows : List Chars}
    (hall : ∀ row ∈ rows, ∃ c, row.head? = some c ∧ c.isWhitespace = false)
    (hne : rows ≠ []) :
    ∃ c, (List.intercalate ['\n'] rows).head? = some c ∧ c.isWhitespace = false := by
  cases rows with
  | nil => exact absurd rfl hne
  | cons a l =>
    obtain ⟨c, hc, hcw⟩ := hall a (by simp)
    exact ⟨c, by rw [intercalate_head _ _ _ (ne_nil_of_head?_some hc)]; exact hc, hcw⟩

/-- Stripping and splitting a serialized table yields exactly the row texts:
every row but the last is a full `rowChars` row, and the last row is
`cleanRow` (its trailing space, present when it has no files, is eaten by
`strip`). -/
theorem snapshot_rows (L : Table) (P : String × PeerRecord)
    (hwf : ∀ p ∈ L ++ [P], wfRecord p.1 p.2) :
    (trimChars (serialize_table (L ++ [P])).toList).splitOn '\n'
      = L.map (fun p => rowChars p.1 p.2) ++ [cleanRow P.1 P.2] := by
  have hPwf : wfRecord P.1 P.2 := hwf P (List.mem_append_right _ (by simp))
  have hLwf : ∀ p ∈ L, wfRecord p.1 p.2 := fun p hp => hwf p (List.mem_append_left _ hp)
  have hserial : (serialize_table (L ++ [P])).toList
      = List.intercalate ['\n'] ((L ++ [P]).map (fun p => rowChars p.1 p.2)) := by
    unfold serialize_table
    exact List.toList_asString _
  have hrowsform : (L ++ [P]).map (fun p => rowChars p.1 p.2)
      = L.map (fun p => rowChars p.1 p.2) ++ [rowChars P.1 P.2] := by
    rw [List.map_append]
    rfl
  have hheads : ∀ row ∈ L.map (fun p => rowChars p.1 p.2) ++ [cleanRow P.1 P.2],
      ∃ c, row.head? = some c ∧ c.isWhitespace = false := by
    intro row hrow
    rcases List.mem_append.mp hrow with hrow | hrow
    · obtain ⟨p, hp, rfl⟩ := List.mem_map.mp hrow
      exact rowChars_head_nonws (hLwf p hp)
    · rw [List.mem_singleton] at hrow
      rw [hrow]
      exact cleanRow_head_nonws hPwf
  have hnonl : ∀ row ∈ L.map (fun p => rowChars p.1 p.2) ++ [cleanRow P.1 P.2],
      '\n' ∉ row := by
    intro row hrow
    rcases List.mem_append.mp hrow with hrow | hrow
    · obtain ⟨p, hp, rfl⟩ := List.mem_map.mp hrow
      exact newline_not_mem_rowChars (hLwf p hp)
    · rw [List.mem_singleton] at hrow
      rw [hrow]
      exact newline_not_mem_cleanRow hPwf
  obtain ⟨ch, hch, hchw⟩ := rows_head_nonws hheads (by simp)
  obtain ⟨cl, hcl, hclw⟩ := cleanRow_getLast_nonws hPwf
  have hclean_ne : cleanRow P.1 P.2 ≠ [] := by
    obtain ⟨c0, hc0, _⟩ := cleanRow_head_nonws hPwf
    exact ne_nil_of_head?_some hc0
  have hglast : (List.intercalate ['\n']
      (L.map (fun p => rowChars p.1 p.2) ++ [cleanRow P.1 P.2])).getLast? = some cl := by
    rw [intercalate_concat_getLast ['\n'] _ _ hclean_ne]
    exact hcl
  have htrim : trimChars (List.intercalate ['\n']
      ((L ++ [P]).map (fun p => rowChars p.1 p.2)))
      = List.intercalate ['\n'] (L.map (fun p => rowChars p.1 p.2) ++ [cleanRow P.1 P.2]) := by
    by_cases hPf : P.2.files = []
    · have hrowP : rowChars P.1 P.2 = rowCore P.1 P.2 ++ [' '] :=
        rowChars_files_nil _ _ hPf
      have hcleanP : cleanRow P.1 P.2 = rowCore P.1 P.2 := by
        unfold cleanRow
        rw [if_pos hPf]
      rw [hrowsform, hrowP, intercalate_append_last, ← hcleanP]
      exact trimChars_append_space hch hchw hglast hclw
    · have hcleanP : cleanRow P.1 P.2 = rowChars P.1 P.2 := by
        unfold cleanRow
        rw [if_neg hPf]
      rw [hrowsform, ← hcleanP]
      exact trimChars_eq_self hch hchw hglast hclw
  rw [hserial, htrim]
  exact List.splitOn_intercalate _ '\n' hnonl (by simp)

/-! ## Decoding a well-formed snapshot -/

theorem forall₂_parse_map (L : Table)
    (h : ∀ p ∈ L, wfRecord p.1 p.2 ∧ p.2.files ≠ []) :
    List.Forall₂ (fun (row : Chars) (p : String × PeerRecord) => parseRow row.asString = some p)
      (L.map (fun p => rowChars p.1 p.2)) L := by
  induction L with
  | nil => exact List.Forall₂.nil
  | cons p ps ih =>
    rw [List.map_cons]
    refine List.Forall₂.cons ?_ (ih fun q hq => h q (by simp [hq]))
    obtain ⟨hwf, hne⟩ := h p (by simp)
    exact parseRow_rowChars hwf hne

theorem forall₂_parse_append {R : Chars → (String × PeerRecord) → Prop} :
    ∀ {l1 l2 : List Chars} {u1 u2 : List (String × PeerRecord)},
      List.Forall₂ R l1 u1 → List.Forall₂ R l2 u2 → List.Forall₂ R (l1 ++ l2) (u1 ++ u2) := by
  intro l1 l2 u1 u2 h1 h2
  induction h1 with
  | nil => exact h2
  | cons hp hrest ih => exact List.Forall₂.cons hp ih

theorem foldlM_parse_forall₂ {rows : List Chars} {l : List (String × PeerRecord)}
    (h : List.Forall₂ (fun row p => parseRow row.asString = some p) rows l) :
    ∀ acc : Table,
      (rows.map List.asString).foldlM
        (fun acc row => (parseRow row).map (fun p => dictSet acc p.1 p.2)) acc
      = some (l.foldl (fun acc p => dictSet acc p.1 p.2) acc) := by
  induction h with
  | nil => intro acc; rfl
  | cons hpar hrest ih =>
    intro acc
    rw [List.map_cons, List.foldlM_cons, hpar]
    exact ih _

theorem foldl_dictSet_append : ∀ (t acc : Table), ((acc ++ t).map Prod.fst).Nodup →
    t.foldl (fun acc p => dictSet acc p.1 p.2) acc = acc ++ t := by
  intro t
  induction t with
  | nil =>
    intro acc _
    simp
  | cons p ps ih =>
    intro acc h
    rw [List.foldl_cons]
    have hnm : dictMem acc p.1 = false := by
      apply dictMem_false_of_not_key
      intro hc
      rw [List.map_append] at h
      obtain ⟨h1, h2, hdisj⟩ := List.nodup_append.mp h
      exact hdisj hc (by simp)
    rw [dictSet_of_not_mem _ hnm]
    have hstep := ih (acc ++ [p]) (by
      rw [List.append_assoc]
      simpa using h)
    rw [hstep, List.append_assoc]
    rfl

/-- Decoding inverts encoding for every nonempty table of well-formed
records in which every record except possibly the last offers at least one
file. -/
theorem deserialize_serialize (t : Table) (hwf : wfTable t) (hne : t ≠ [])
    (hfiles : ∀ p ∈ t.dropLast, p.2.files ≠ []) :
    deserialize_table (serialize_table t) = some t := by
  have hdecomp := List.dropLast_append_getLast hne
  have hall : ∀ p ∈ t.dropLast ++ [t.getLast hne], wfRecord p.1 p.2 := by
    intro p hp
    rw [hdecomp] at hp
    exact hwf.1 p hp
  have hrows := snapshot_rows t.dropLast (t.getLast hne) hall
  have hPwf : wfRecord (t.getLast hne).1 (t.getLast hne).2 :=
    hall _ (List.mem_append_right _ (by simp))
  have hps : pySplit (pyStrip (serialize_table t)) '\n'
      = (t.dropLast.map (fun p => rowChars p.1 p.2)
          ++ [cleanRow (t.getLast hne).1 (t.getLast hne).2]).map List.asString := by
    unfold pyStrip pySplit
    rw [List.toList_asString]
    rw [show serialize_table t = serialize_table (t.dropLast ++ [t.getLast hne]) from by
      rw [hdecomp]]
    exact congrArg (List.map List.asString) hrows
  have hfa : List.Forall₂
      (fun (row : Chars) (p : String × PeerRecord) => parseRow row.asString = some p)
      (t.dropLast.map (fun p => rowChars p.1 p.2)
        ++ [cleanRow (t.getLast hne).1 (t.getLast hne).2])
      (t.dropLast ++ [t.getLast hne]) := by
    apply forall₂_parse_append
    · apply forall₂_parse_map
      intro p hp
      exact ⟨hall p (List.mem_append_left _ hp), hfiles p hp⟩
    · exact List.Forall₂.cons (parseRow_cleanRow hPwf) List.Forall₂.nil
  unfold deserialize_table
  rw [hps, foldlM_parse_forall₂ hfa []]
  rw [foldl_dictSet_append (t.dropLast ++ [t.getLast hne]) [] (by
    rw [List.nil_append, hdecomp]
    exact hwf.2)]
  rw [List.nil_append, hdecomp]

/-! ## Reachable tables are well-formed -/

theorem dictMem_of_key_mem {t : Table} {k : String} (h : k ∈ t.map Prod.fst) :
    dictMem t k = true := by
  obtain ⟨p, hp, hpk⟩ := List.mem_map.mp h
  exact List.any_eq_true.mpr ⟨p, hp, by simp [hpk]⟩

theorem wfTable_nil : wfTable [] := ⟨by simp, by simp⟩

theorem wfTable_dictSet {t : Table} {k : String} {v : PeerRecord}
    (h : wfTable t) (hk : wfTok k) (hv : wfTok v.ip) (hf : ∀ f ∈ v.files, wfTok f) :
    wfTable (dictSet t k v) := by
  constructor
  · intro p hp
    rcases mem_dictSet hp with rfl | hp
    · exact ⟨hk, hv, hf⟩
    · exact h.1 p hp
  · by_cases hm : dictMem t k = true
    · rw [dictSet_keys v hm]
      exact h.2
    · rw [dictSet_keys_new v (by simpa using hm)]
      have hky : k ∉ t.map Prod.fst := fun hc => by
        rw [dictMem_of_key_mem hc] at hm
        exact hm rfl
      rw [(List.perm_append_singleton _ _).nodup_iff]
      exact List.nodup_cons.mpr ⟨hky, h.2⟩

theorem applyOp_wf {t : Table} {op : Op} (ht : wfTable t) (hop : op.wf) :
    wfTable (applyOp t op) := by
  cases op with
  | register n i u tc =>
    obtain ⟨hn, hi⟩ := hop
    by_cases hon : (dictGet t n).elim false (fun x => x.online) = true
    · rw [show applyOp t (Op.register n i u tc)
          = ((handle_registration t [n, i, u, tc] ("", 0)).map Prod.fst).getD t from rfl,
        handle_registration_online hon, getD_map_fst]
      exact ht
    · have hon' : (dictGet t n).elim false (fun x => x.online) = false := by simpa using hon
      cases hu : pyInt u with
      | none =>
        rw [show applyOp t (Op.register n i u tc)
            = ((handle_registration t [n, i, u, tc] ("", 0)).map Prod.fst).getD t from rfl,
          handle_registration_raise_udp hon' hu]
        exact ht
      | some ui =>
        cases htc : pyInt tc with
        | none =>
          rw [show applyOp t (Op.register n i u tc)
              = ((handle_registration t [n, i, u, tc] ("", 0)).map Prod.fst).getD t from rfl,
            handle_registration_raise_tcp hon' hu htc]
          exact ht
        | some tci =>
          rw [show applyOp t (Op.register n i u tc)
              = ((handle_registration t [n, i, u, tc] ("", 0)).map Prod.fst).getD t from rfl,
            handle_registration_success hon' hu htc, getD_map_fst]
          apply wfTable_dictSet ht hn hi
          intro f hf
          cases hg : dictGet t n with
          | none =>
            rw [hg] at hf
            simp at hf
          | some r =>
            rw [hg] at hf
            have hfr : f ∈ r.files := hf
            exact (ht.1 (n, r) (dictGet_mem hg)).2.2 f hfr
  | disconnect n =>
    cases hg : dictGet t n with
    | none =>
      rw [show applyOp t (Op.disconnect n)
          = ((handle_disconnect t [n]).map Prod.fst).getD t from rfl,
        handle_disconnect_unknown hg, getD_map_fst]
      exact ht
    | some r =>
      rw [show applyOp t (Op.disconnect n)
          = ((handle_disconnect t [n]).map Prod.fst).getD t from rfl,
        handle_disconnect_known hg, getD_map_fst]
      have hwfr := ht.1 (n, r) (dictGet_mem hg)
      exact wfTable_dictSet ht hwfr.1 hwfr.2.1 hwfr.2.2
  | offer n fs =>
    cases hg : dictGet t n with
    | none =>
      rw [show applyOp t (Op.offer n fs)
          = ((handle_offer t (n :: fs)).map Prod.fst).getD t from rfl,
        handle_offer_unknown hg, getD_map_fst]
      exact ht
    | some client =>
      rw [show applyOp t (Op.offer n fs)
          = ((handle_offer t (n :: fs)).map Prod.fst).getD t from rfl,
        handle_offer_known hg, getD_map_fst]
      have hwfr := ht.1 (n, client) (dictGet_mem hg)
      refine wfTable_dictSet ht hwfr.1 ?_ ?_
      · exact hwfr.2.1
      · intro f hf
        have hfa : f ∈ appendNew client.files fs := hf
        rw [appendNew_eq] at hfa
        rcases List.mem_append.mp hfa with hfm | hfm
        · exact hwfr.2.2 f hfm
        · exact hop f (mem_of_mem_firstSeen hfm)

theorem applyOps_wf {ops : List Op} (hops : ∀ op ∈ ops, op.wf) :
    ∀ {t : Table}, wfTable t → wfTable (applyOps t ops) := by
  induction ops with
  | nil =>
    intro t ht
    exact ht
  | cons op rest ih =>
    intro t ht
    have h1 : wfTable (applyOp t op) := applyOp_wf ht (hops op (by simp))
    exact ih (fun o ho => hops o (by simp [ho])) h1

/-! ## Deserialization failure propagation -/

theorem parseRow_short {row : String} (h : (pySplit row ' ').length < 5) :
    parseRow row = none := by
  unfold parseRow
  rcases hsp : pySplit row ' ' with _ | ⟨a, _ | ⟨b, _ | ⟨c, _ | ⟨d, _ | ⟨e, fs⟩⟩⟩⟩⟩
  · rfl
  · rfl
  · rfl
  · rfl
  · rfl
  · rw [hsp] at h
    simp at h
    omega

theorem foldlM_parse_none {rows : List String} {row : String}
    (hrow : row ∈ rows) (hnone : parseRow row = none) :
    ∀ acc : Table,
      rows.foldlM (fun acc row => (parseRow row).map (fun p => dictSet acc p.1 p.2)) acc
        = none := by
  induction rows with
  | nil => simp at hrow
  | cons r rs ih =>
    intro acc
    rw [List.foldlM_cons]
    rcases List.mem_cons.mp hrow with h | h
    · rw [h] at hnone
      rw [hnone]
      rfl
    · cases hp : parseRow r with
      | none => rfl
      | some p => exact ih h (dictSet acc p.1 p.2)

/-! ## Claim theorems -/

/-- C1 (code bug evidence): the spec says ports are validated to lie in
[1024, 65535] and IPs validated as IPv4 literals before a record is
admitted, and the class indeed carries `is_valid_port` / `is_valid_ip` —
but `handle_registration` never calls them: a REGISTER with port 80 and IP
`300.1.1.1`, both rejected by the validators, is admitted and creates a
record. -/
theorem claim_C1_validators_never_called :
    is_valid_port 80 = false ∧ is_valid_ip "300.1.1.1" = false ∧
    (handle_registration [] ["alice", "300.1.1.1", "80", "9001"] ("7.7.7.7", 5)).map Prod.fst
      = some [("alice", { ip := "300.1.1.1", udp_port := 80, tcp_port := 9001,
                          files := [], online := true })] := by
  refine ⟨by decide, by decide, by decide⟩

/-- C2 (counterexample): a REGISTER datagram whose payload has fewer than
four fields makes the tuple unpacking in `handle_registration` raise, and
`listen_udp` has no handler for it — the receive loop does not survive the
malformed datagram (`none` models the uncaught exception). -/
theorem claim_C2_counterexample :
    listen_step [] "REGISTER a b" ("1.1.1.1", 1) = none := by decide

/-- C2 (amended): an inbound datagram whose kind token is not one of
REGISTER/DISCONNECT/OFFER (ACK included) is processed without raising,
leaving the table unchanged and sending nothing; but a datagram with a
recognized kind and malformed payload — e.g. a REGISTER line with fewer
than four payload fields — raises an uncaught exception that terminates
the receive loop. -/
theorem claim_C2_amended (t : Table) (data : String) (addr : String × Int)
    (h : (pySplit data ' ').headD "" ∉ (["REGISTER", "DISCONNECT", "OFFER"] : List String)) :
    listen_step t data addr = some (t, [])
      ∧ ∀ t' : Table, listen_step t' "REGISTER a b" addr = none := by
  have h1 : (pySplit data ' ').headD "" ≠ "REGISTER" := fun hc => h (by rw [hc]; simp)
  have h2 : (pySplit data ' ').headD "" ≠ "DISCONNECT" := fun hc => h (by rw [hc]; simp)
  have h3 : (pySplit data ' ').headD "" ≠ "OFFER" := fun hc => h (by rw [hc]; simp)
  constructor
  · unfold listen_step
    rw [if_neg h1, if_neg h2]
    by_cases hA : (pySplit data ' ').headD "" = "ACK"
    · rw [if_pos hA]
    · rw [if_neg hA, if_neg h3]
  · intro t'
    rfl

/-- C2 witness: a datagram with an unknown kind token is ignored and the
loop survives it. -/
theorem claim_C2_amended_witness :
    listen_step [] "HELLO world" ("1.1.1.1", 1) = some ([], []) :=
  (claim_C2_amended [] "HELLO world" ("1.1.1.1", 1) (by decide)).1

/-- C6: a snapshot message one of whose lines (as the receiver computes
them: strip, then split on newlines) has fewer than five space-separated
fields makes the whole deserialization fail, and the peer's cached table is
left exactly as it was — no record of the malformed snapshot is applied,
not even from its well-formed lines. -/
theorem claim_C6_malformed_snapshot_atomic (t : Table) (msg : String)
    (h : ∃ row ∈ pySplit (pyStrip msg) '\n', (pySplit row ' ').length < 5) :
    update_client_table t msg = t := by
  obtain ⟨row, hrow, hlen⟩ := h
  have hd : deserialize_table msg = none := by
    unfold deserialize_table
    exact foldlM_parse_none hrow (parseRow_short hlen) []
  unfold update_client_table
  rw [hd]

/-- C6 witness: a concrete snapshot whose second line is malformed leaves a
concrete nonempty cached table untouched, even though its first line is
well-formed. -/
theorem claim_C6_witness :
    update_client_table [("a", { ip := "1.1.1.1", udp_port := 1024, tcp_port := 2048,
                                 files := [], online := true })]
        "b 2.2.2.2 1025 2049 1 f\nbad line"
      = [("a", { ip := "1.1.1.1", udp_port := 1024, tcp_port := 2048,
                 files := [], online := true })] :=
  claim_C6_malformed_snapshot_atomic _ _ (by decide)

/-- C7: offering to a known name only ever appends filenames not yet
present, in first-seen order (`appendNew files fs = files ++ firstSeen`),
and when every offered filename is already present the whole table is left
unchanged — `appendFiles` is idempotent. -/
theorem claim_C7_append_idempotent_ordered (t : Table) (name : String) (r : PeerRecord)
    (fs : List String) (hnd : (t.map Prod.fst).Nodup) (hget : dictGet t name = some r) :
    ((∀ f ∈ fs, f ∈ r.files) → (handle_offer t (name :: fs)).map Prod.fst = some t)
    ∧ (handle_offer t (name :: fs)).map Prod.fst
        = some (dictSet t name { r with files := r.files ++ firstSeen r.files fs }) := by
  have hcomp : (handle_offer t (name :: fs)).map Prod.fst
      = some (dictSet t name { r with files := appendNew r.files fs }) := by
    simp only [handle_offer, hget]
    rfl
  constructor
  · intro hall
    rw [hcomp, appendNew_eq_self hall]
    have : ({ r with files := r.files } : PeerRecord) = r := rfl
    rw [this, dictSet_eq_self hnd hget]
  · rw [hcomp, appendNew_eq]

/-- C7 witness: re-offering the already present file `f` leaves a concrete
table unchanged, and a fresh offer appends in first-seen order. -/
theorem claim_C7_witness :
    (handle_offer [("a", { ip := "1.1.1.1", udp_port := 1024, tcp_port := 2048,
                           files := ["f"], online := true })] ["a", "f"]).map Prod.fst
      = some [("a", { ip := "1.1.1.1", udp_port := 1024, tcp_port := 2048,
                      files := ["f"], online := true })] :=
  (claim_C7_append_idempotent_ordered
    [("a", { ip := "1.1.1.1", udp_port := 1024, tcp_port := 2048,
             files := ["f"], online := true })] "a"
    { ip := "1.1.1.1", udp_port := 1024, tcp_port := 2048, files := ["f"], online := true }
    ["f"] (by decide) (by decide)).1 (by decide)

/-- C9: a peer-side offer that appends filenames optimistically and then
receives no ACK within the window keeps the appended filenames — the
resulting cached table is the same as in the ACK case (no rollback), and
only the printed diagnostic differs. -/
theorem claim_C9_no_rollback_on_timeout (t : Table) (name : String) (r : PeerRecord)
    (fs : List String) (hget : dictGet t name = some r) (hfs : fs ≠ []) :
    (∃ r', dictGet ((offer t name fs false).1) name = some r'
        ∧ (∀ f ∈ fs, f ∈ r'.files) ∧ List.Sublist r.files r'.files)
    ∧ (offer t name fs false).1 = (offer t name fs true).1
    ∧ (offer t name fs false).2 = "No ACK from Server, please try again later." := by
  have hne : fs.isEmpty = false := by simpa [List.isEmpty_iff] using hfs
  have hloc : (offer t name fs false).1 = dictSet t name { r with files := appendNew r.files fs } := by
    simp only [offer, hne, Bool.false_eq_true, if_false, offer_local, hget]
  refine ⟨⟨{ r with files := appendNew r.files fs }, ?_, ?_, ?_⟩, ?_, ?_⟩
  · rw [hloc]
    exact dictGet_dictSet_self _ _ _
  · intro f hf
    exact mem_appendNew hf
  · show List.Sublist r.files (appendNew r.files fs)
    rw [appendNew_eq]
    exact List.sublist_append_left _ _
  · simp only [offer, hne, Bool.false_eq_true, if_false]
  · simp only [offer, hne, Bool.false_eq_true, if_false]

/-- C9 witness: a concrete timed-out offer produces exactly the table the
acknowledged offer would, and the timeout diagnostic. -/
theorem claim_C9_witness :
    (offer [("a", { ip := "1.1.1.1", udp_port := 1024, tcp_port := 2048,
                    files := [], online := true })] "a" ["g"] false).1
      = (offer [("a", { ip := "1.1.1.1", udp_port := 1024, tcp_port := 2048,
                        files := [], online := true })] "a" ["g"] true).1
    ∧ (offer [("a", { ip := "1.1.1.1", udp_port := 1024, tcp_port := 2048,
                      files := [], online := true })] "a" ["g"] false).2
      = "No ACK from Server, please try again later." :=
  (claim_C9_no_rollback_on_timeout
    [("a", { ip := "1.1.1.1", udp_port := 1024, tcp_port := 2048,
             files := [], online := true })] "a"
    { ip := "1.1.1.1", udp_port := 1024, tcp_port := 2048, files := [], online := true }
    ["g"] (by decide) (by decide)).2

/-- C3 (counterexample): the snapshot round trip fails on reachable tables.
The empty table (the empty operation sequence) serializes to the empty
text, whose deserialization raises; and after two registrations the first
record's empty file list makes its row end in a space before the newline,
so decoding returns that record with files `[""]` instead of `[]` — not the
original table. -/
theorem claim_C3_counterexample :
    deserialize_table (serialize_table ([] : Table)) = none
    ∧ applyOps [] [Op.register "a" "1.1.1.1" "1024" "2048",
        Op.register "b" "2.2.2.2" "1025" "2049"]
      = [("a", { ip := "1.1.1.1", udp_port := 1024, tcp_port := 2048,
                 files := [], online := true }),
         ("b", { ip := "2.2.2.2", udp_port := 1025, tcp_port := 2049,
                 files := [], online := true })]
    ∧ deserialize_table (serialize_table
        [("a", { ip := "1.1.1.1", udp_port := 1024, tcp_port := 2048,
                 files := [], online := true }),
         ("b", { ip := "2.2.2.2", udp_port := 1025, tcp_port := 2049,
                 files := [], online := true })])
      = some [("a", { ip := "1.1.1.1", udp_port := 1024, tcp_port := 2048,
                      files := [""], online := true }),
              ("b", { ip := "2.2.2.2", udp_port := 1025, tcp_port := 2049,
                      files := [], online := true })]
    ∧ ([("a", { ip := "1.1.1.1", udp_port := 1024, tcp_port := 2048,
                files := [""], online := true }),
        ("b", { ip := "2.2.2.2", udp_port := 1025, tcp_port := 2049,
                files := [], online := true })] : Table)
      ≠ [("a", { ip := "1.1.1.1", udp_port := 1024, tcp_port := 2048,
                 files := [], online := true }),
         ("b", { ip := "2.2.2.2", udp_port := 1025, tcp_port := 2049,
                 files := [], online := true })] := by
  refine ⟨by decide, by decide, by decide, by decide⟩

/-- C3 (amended): for every table reached from the empty table by
REGISTER/DISCONNECT/OFFER operations whose string fields are nonempty and
whitespace-free, if the table is nonempty and every record except possibly
the last offers at least one file, then decoding the encoded snapshot
reproduces the table identically. -/
theorem claim_C3_roundtrip_amended (ops : List Op) (t : Table)
    (hops : ∀ op ∈ ops, op.wf) (ht : applyOps [] ops = t) (hne : t ≠ [])
    (hfiles : ∀ p ∈ t.dropLast, p.2.files ≠ []) :
    deserialize_table (serialize_table t) = some t := by
  have hwf : wfTable t := by
    rw [← ht]
    exact applyOps_wf hops wfTable_nil
  exact deserialize_serialize t hwf hne hfiles

/-- C3 witness: a concrete reachable table — one registration followed by
one file offer and a second registration — round-trips identically. -/
theorem claim_C3_witness :
    deserialize_table (serialize_table
      [("a", { ip := "1.1.1.1", udp_port := 1024, tcp_port := 2048,
               files := ["f"], online := true }),
       ("b", { ip := "2.2.2.2", udp_port := 1025, tcp_port := 2049,
               files := [], online := true })])
      = some [("a", { ip := "1.1.1.1", udp_port := 1024, tcp_port := 2048,
                      files := ["f"], online := true }),
              ("b", { ip := "2.2.2.2", udp_port := 1025, tcp_port := 2049,
                      files := [], online := true })] :=
  claim_C3_roundtrip_amended
    [Op.register "a" "1.1.1.1" "1024" "2048", Op.offer "a" ["f"],
     Op.register "b" "2.2.2.2" "1025" "2049"]
    [("a", { ip := "1.1.1.1", udp_port := 1024, tcp_port := 2048,
             files := ["f"], online := true }),
     ("b", { ip := "2.2.2.2", udp_port := 1025, tcp_port := 2049,
             files := [], online := true })]
    (by
      intro op hop
      simp only [List.mem_cons, List.not_mem_nil, or_false] at hop
      rcases hop with rfl | rfl | rfl
      · exact ⟨⟨by decide, by decide⟩, ⟨by decide, by decide⟩⟩
      · intro f hf
        simp only [List.mem_singleton] at hf
        rw [hf]
        exact ⟨by decide, by decide⟩
      · exact ⟨⟨by decide, by decide⟩, ⟨by decide, by decide⟩⟩)
    (by decide) (by decide)
    (by
      intro p hp
      have hp' : p = ("a", { ip := "1.1.1.1", udp_port := 1024, tcp_port := 2048,
                             files := ["f"], online := true }) :=
        List.mem_singleton.mp hp
      rw [hp']
      decide)

/-- C4: a REGISTER for a name whose record is online is answered with ERROR
and leaves the table exactly unchanged (so repeating it any number of times
never mutates state); a REGISTER for a known offline name succeeds,
reactivating the same record — the key set of the table is unchanged (no
fresh record is created) and the record keeps exactly its old offeredFiles
with online set back to true. -/
theorem claim_C4_reregistration (t : Table) (name ip udp tcp : String) (addr : String × Int) :
    ((dictGet t name).elim false (fun r => r.online) = true →
      handle_registration t [name, ip, udp, tcp] addr = some (t, [(addr, "ERROR")]))
    ∧ (∀ r : PeerRecord, dictGet t name = some r → r.online = false →
        ∀ u tc : Int, pyInt udp = some u → pyInt tcp = some tc →
          (handle_registration t [name, ip, udp, tcp] addr).map Prod.fst
              = some (dictSet t name
                  { ip := ip, udp_port := u, tcp_port := tc,
                    files := r.files, online := true })
            ∧ (dictSet t name
                  { ip := ip, udp_port := u, tcp_port := tc,
                    files := r.files, online := true }).map Prod.fst
                = t.map Prod.fst) := by
  constructor
  · intro hon
    exact handle_registration_online hon
  · intro r hget hoff u tc hu htc
    have hon : (dictGet t name).elim false (fun x => x.online) = false := by
      rw [hget]
      exact hoff
    have hfiles : ((dictGet t name).map (fun x => x.files)).getD [] = r.files := by
      rw [hget]
      rfl
    constructor
    · rw [handle_registration_success hon hu htc, hfiles]
      rfl
    · exact dictSet_keys _ (dictMem_of_dictGet hget)

/-- C4 witness: a concrete online name is rejected without mutation, and a
concrete offline name is reactivated in place with its files kept. -/
theorem claim_C4_witness :
    (handle_registration
        [("a", { ip := "1.1.1.1", udp_port := 1024, tcp_port := 2048,
                 files := ["f"], online := true })]
        ["a", "2.2.2.2", "1030", "1031"] ("9.9.9.9", 7)
      = some ([("a", { ip := "1.1.1.1", udp_port := 1024, tcp_port := 2048,
                       files := ["f"], online := true })],
              [(("9.9.9.9", 7), "ERROR")]))
    ∧ ((handle_registration
          [("b", { ip := "1.1.1.1", udp_port := 1024, tcp_port := 2048,
                   files := ["f"], online := false })]
          ["b", "3.3.3.3", "1040", "1041"] ("9.9.9.9", 7)).map Prod.fst
        = some (dictSet
            [("b", { ip := "1.1.1.1", udp_port := 1024, tcp_port := 2048,
                     files := ["f"], online := false })] "b"
            { ip := "3.3.3.3", udp_port := 1040, tcp_port := 1041,
              files := ["f"], online := true })) :=
  ⟨(claim_C4_reregistration
      [("a", { ip := "1.1.1.1", udp_port := 1024, tcp_port := 2048,
               files := ["f"], online := true })]
      "a" "2.2.2.2" "1030" "1031" ("9.9.9.9", 7)).1 (by decide),
   ((claim_C4_reregistration
      [("b", { ip := "1.1.1.1", udp_port := 1024, tcp_port := 2048,
               files := ["f"], online := false })]
      "b" "3.3.3.3" "1040" "1041" ("9.9.9.9", 7)).2
      { ip := "1.1.1.1", udp_port := 1024, tcp_port := 2048, files := ["f"], online := false }
      (by decide) rfl 1040 1041 (by decide) (by decide)).1⟩

/-- One registry step never loses a record and never shrinks a record's
file list: after any single mutating datagram, a previously present name is
still present and its old file list is a sublist (in fact an initial run)
of the new one. -/
theorem applyOp_monotone (t : Table) (op : Op) (name : String) (r : PeerRecord)
    (hget : dictGet t name = some r) :
    ∃ r', dictGet (applyOp t op) name = some r' ∧ List.Sublist r.files r'.files := by
  cases op with
  | register n i u tc =>
    by_cases hon : (dictGet t n).elim false (fun x => x.online) = true
    · rw [show applyOp t (Op.register n i u tc)
          = ((handle_registration t [n, i, u, tc] ("", 0)).map Prod.fst).getD t from rfl,
        handle_registration_online hon]
      exact ⟨r, hget, List.Sublist.refl _⟩
    · have hon' : (dictGet t n).elim false (fun x => x.online) = false := by
        simpa using hon
      cases hu : pyInt u with
      | none =>
        rw [show applyOp t (Op.register n i u tc)
            = ((handle_registration t [n, i, u, tc] ("", 0)).map Prod.fst).getD t from rfl,
          handle_registration_raise_udp hon' hu]
        exact ⟨r, hget, List.Sublist.refl _⟩
      | some ui =>
        cases htc : pyInt tc with
        | none =>
          rw [show applyOp t (Op.register n i u tc)
              = ((handle_registration t [n, i, u, tc] ("", 0)).map Prod.fst).getD t from rfl,
            handle_registration_raise_tcp hon' hu htc]
          exact ⟨r, hget, List.Sublist.refl _⟩
        | some tci =>
          rw [show applyOp t (Op.register n i u tc)
              = ((handle_registration t [n, i, u, tc] ("", 0)).map Prod.fst).getD t from rfl,
            handle_registration_success hon' hu htc, getD_map_fst]
          by_cases hn : n = name
          · subst hn
            refine ⟨_, dictGet_dictSet_self t n _, ?_⟩
            have hfe : ((dictGet t n).map (fun x => x.files)).getD [] = r.files := by
              rw [hget]
              rfl
            simp only [hfe]
            exact List.Sublist.refl _
          · rw [dictGet_dictSet_ne t _ (Ne.symm hn)]
            exact ⟨r, hget, List.Sublist.refl _⟩
  | disconnect n =>
    cases hg : dictGet t n with
    | none =>
      rw [show applyOp t (Op.disconnect n)
          = ((handle_disconnect t [n]).map Prod.fst).getD t from rfl,
        handle_disconnect_unknown hg]
      exact ⟨r, hget, List.Sublist.refl _⟩
    | some rr =>
      rw [show applyOp t (Op.disconnect n)
          = ((handle_disconnect t [n]).map Prod.fst).getD t from rfl,
        handle_disconnect_known hg, getD_map_fst]
      by_cases hn : n = name
      · subst hn
        refine ⟨_, dictGet_dictSet_self t n _, ?_⟩
        have : rr = r := by rw [hg] at hget; exact Option.some_inj.mp hget
        rw [this]
      · rw [dictGet_dictSet_ne t _ (Ne.symm hn)]
        exact ⟨r, hget, List.Sublist.refl _⟩
  | offer n fs =>
    cases hg : dictGet t n with
    | none =>
      rw [show applyOp t (Op.offer n fs)
          = ((handle_offer t (n :: fs)).map Prod.fst).getD t from rfl,
        handle_offer_unknown hg]
      exact ⟨r, hget, List.Sublist.refl _⟩
    | some client =>
      rw [show applyOp t (Op.offer n fs)
          = ((handle_offer t (n :: fs)).map Prod.fst).getD t from rfl,
        handle_offer_known hg, getD_map_fst]
      by_cases hn : n = name
      · subst hn
        refine ⟨_, dictGet_dictSet_self t n _, ?_⟩
        have : client = r := by rw [hg] at hget; exact Option.some_inj.mp hget
        rw [this]
        show List.Sublist r.files (appendNew r.files fs)
        rw [appendNew_eq]
        exact List.sublist_append_left _ _
      · rw [dictGet_dictSet_ne t _ (Ne.symm hn)]
        exact ⟨r, hget, List.Sublist.refl _⟩

/-- C8: across any sequence of REGISTER/OFFER/DISCONNECT datagrams, a name
once present in the registry table stays present, and its offeredFiles list
only grows — the old list is a sublist (supersequence relation) of the
final one. -/
theorem claim_C8_records_never_shrink (ops : List Op) (t : Table) (name : String)
    (r : PeerRecord) (hget : dictGet t name = some r) :
    (dictGet (applyOps t ops) name).isSome = true
    ∧ List.Sublist r.files
        (((dictGet (applyOps t ops) name).map PeerRecord.files).getD []) := by
  suffices h : ∃ r', dictGet (applyOps t ops) name = some r'
      ∧ List.Sublist r.files r'.files by
    obtain ⟨r', h1, h2⟩ := h
    rw [h1]
    exact ⟨rfl, h2⟩
  induction ops generalizing t r with
  | nil => exact ⟨r, hget, List.Sublist.refl _⟩
  | cons op ops ih =>
    obtain ⟨r1, h1, hs1⟩ := applyOp_monotone t op name r hget
    obtain ⟨r2, h2, hs2⟩ := ih (applyOp t op) r1 h1
    exact ⟨r2, h2, hs1.trans hs2⟩

/-- C8 witness: a concrete record survives an offer, a disconnect and a
foreign registration, its file list growing from `[f]` to `[f, g]`. -/
theorem claim_C8_witness :
    (dictGet (applyOps
        [("a", { ip := "1.1.1.1", udp_port := 1024, tcp_port := 2048,
                 files := ["f"], online := true })]
        [Op.offer "a" ["g"], Op.disconnect "a", Op.register "b" "2.2.2.2" "1025" "2049"])
      "a").isSome = true
    ∧ List.Sublist ["f"]
        (((dictGet (applyOps
            [("a", { ip := "1.1.1.1", udp_port := 1024, tcp_port := 2048,
                     files := ["f"], online := true })]
            [Op.offer "a" ["g"], Op.disconnect "a", Op.register "b" "2.2.2.2" "1025" "2049"])
          "a").map PeerRecord.files).getD []) :=
  claim_C8_records_never_shrink
    [Op.offer "a" ["g"], Op.disconnect "a", Op.register "b" "2.2.2.2" "1025" "2049"]
    [("a", { ip := "1.1.1.1", udp_port := 1024, tcp_port := 2048,
             files := ["f"], online := true })]
    "a" { ip := "1.1.1.1", udp_port := 1024, tcp_port := 2048, files := ["f"], online := true }
    (by decide)

/-- The destinations of the UPDATE-kind packets in a send list (a packet is
an UPDATE exactly when its payload starts with the seven characters
`UPDATE` and space). -/
def updateRecipients : List Packet → List (String × Int)
  | [] => []
  | m :: ms =>
    if m.2.toList.take 7 = "UPDATE ".toList then m.1 :: updateRecipients ms
    else updateRecipients ms

/-- The addresses of the online records, in table order. -/
def onlineAddrs : Table → List (String × Int)
  | [] => []
  | p :: ps =>
    if p.2.online then (p.2.ip, p.2.udp_port) :: onlineAddrs ps else onlineAddrs ps

theorem updateRecipients_append (xs ys : List Packet) :
    updateRecipients (xs ++ ys) = updateRecipients xs ++ updateRecipients ys := by
  induction xs with
  | nil => rfl
  | cons m ms ih =>
    rw [List.cons_append]
    by_cases h : m.2.toList.take 7 = "UPDATE ".toList
    · simp only [updateRecipients, if_pos h, ih, List.cons_append]
    · simp only [updateRecipients, if_neg h, ih]

theorem take7_update (s : String) : ("UPDATE " ++ s).toList.take 7 = "UPDATE ".toList := by
  show ("UPDATE ".data ++ s.data).take 7 = "UPDATE ".data
  exact List.take_left' (by decide)

theorem take7_disconnected (n : String) :
    ("DISCONNECTED " ++ n).toList.take 7 ≠ "UPDATE ".toList := by
  have hsplit : ("DISCONNECTED " ++ n).toList = "DISCONN".toList ++ ("ECTED ".toList ++ n.toList) := by
    show "DISCONNECTED ".data ++ n.data = "DISCONN".data ++ ("ECTED ".data ++ n.data)
    rw [← List.append_assoc]
    congr 1
  rw [hsplit, List.take_left' (by decide)]
  decide

theorem take7_welcome (s : String) :
    ("WELCOME " ++ s).toList.take 7 ≠ "UPDATE ".toList := by
  have hsplit : ("WELCOME " ++ s).toList = "WELCOME".toList ++ (" ".toList ++ s.toList) := by
    show "WELCOME ".data ++ s.data = "WELCOME".data ++ (" ".data ++ s.data)
    rw [← List.append_assoc]
    congr 1
  rw [hsplit, List.take_left' (by decide)]
  decide

theorem take7_ack : ("ACK" : String).toList.take 7 ≠ "UPDATE ".toList := by
  decide

theorem updateRecipients_mapped (t : Table) (s : String) :
    updateRecipients (t.map (fun p =>
      if p.2.online then ((p.2.ip, p.2.udp_port), "UPDATE " ++ s)
      else ((p.2.ip, p.2.udp_port), "DISCONNECTED " ++ p.1)))
      = onlineAddrs t := by
  induction t with
  | nil => rfl
  | cons p ps ih =>
    rw [List.map_cons]
    show updateRecipients
        ((if p.2.online then ((p.2.ip, p.2.udp_port), "UPDATE " ++ s)
          else ((p.2.ip, p.2.udp_port), "DISCONNECTED " ++ p.1)) :: List.map _ ps)
      = onlineAddrs (p :: ps)
    by_cases hon : p.2.online
    · rw [if_pos hon]
      simp only [updateRecipients, onlineAddrs]
      rw [if_pos (take7_update s), if_pos hon, ih]
    · rw [if_neg hon]
      simp only [updateRecipients, onlineAddrs]
      rw [if_neg (take7_disconnected p.1), if_neg hon, ih]

theorem updateRecipients_broadcast (t : Table) :
    updateRecipients (broadcast_table t) = onlineAddrs t := by
  unfold broadcast_table
  exact updateRecipients_mapped t (serialize_table t)

/-- C5: on every mutating operation — a REGISTER that is not rejected, a
DISCONNECT of a known name, an OFFER for a known name — the registry sends
an UPDATE carrying the full snapshot to exactly the records that are online
in the post-mutation table (the triggering peer included when online), and
to no others: the UPDATE recipient list equals the online-address list. -/
theorem claim_C5_update_fanout (t : Table) :
    updateRecipients (broadcast_table t) = onlineAddrs t
    ∧ (∀ msg addr t' out, handle_registration t msg addr = some (t', out) →
        out ≠ [(addr, "ERROR")] → updateRecipients out = onlineAddrs t')
    ∧ (∀ msg t' out, handle_disconnect t msg = some (t', out) →
        out ≠ [] → updateRecipients out = onlineAddrs t')
    ∧ (∀ msg t' out, handle_offer t msg = some (t', out) →
        out ≠ [] → updateRecipients out = onlineAddrs t') := by
  refine ⟨updateRecipients_broadcast t, ?_, ?_, ?_⟩
  · intro msg addr t' out hreg hne
    rcases msg with _ | ⟨name, _ | ⟨ip, _ | ⟨udp, _ | ⟨tcp, _ | ⟨e, rest⟩⟩⟩⟩⟩
    · simp [handle_registration] at hreg
    · simp [handle_registration] at hreg
    · simp [handle_registration] at hreg
    · simp [handle_registration] at hreg
    · by_cases hon : (dictGet t name).elim false (fun r => r.online) = true
      · rw [handle_registration_online hon] at hreg
        injection hreg with hpair
        injection hpair with ht' hout
        exact absurd hout.symm hne
      · have hon' : (dictGet t name).elim false (fun r => r.online) = false := by
          simpa using hon
        cases hu : pyInt udp with
        | none => rw [handle_registration_raise_udp hon' hu] at hreg; exact Option.noConfusion hreg
        | some u =>
          cases htc : pyInt tcp with
          | none => rw [handle_registration_raise_tcp hon' hu htc] at hreg; exact Option.noConfusion hreg
          | some tc =>
            rw [handle_registration_success hon' hu htc] at hreg
            injection hreg with hpair
            injection hpair with ht' hout
            subst ht'
            subst hout
            simp only [updateRecipients]
            rw [if_neg (take7_welcome _)]
            exact updateRecipients_broadcast _
    · simp [handle_registration] at hreg
  · intro msg t' out hd hne
    rcases msg with _ | ⟨n, rest⟩
    · simp [handle_disconnect] at hd
    · cases hg : dictGet t n with
      | none =>
        rw [handle_disconnect_unknown hg] at hd
        injection hd with hpair
        injection hpair with ht' hout
        exact absurd hout.symm hne
      | some r =>
        rw [handle_disconnect_known hg] at hd
        injection hd with hpair
        injection hpair with ht' hout
        subst ht'
        subst hout
        exact updateRecipients_broadcast _
  · intro msg t' out ho hne
    rcases msg with _ | ⟨n, fs⟩
    · simp [handle_offer] at ho
    · cases hg : dictGet t n with
      | none =>
        rw [handle_offer_unknown hg] at ho
        injection ho with hpair
        injection hpair with ht' hout
        exact absurd hout.symm hne
      | some client =>
        rw [handle_offer_known hg] at ho
        injection ho with hpair
        injection hpair with ht' hout
        subst ht'
        subst hout
        rw [updateRecipients_append]
        have hack : updateRecipients [((client.ip, client.udp_port), "ACK")] = [] := by
          simp only [updateRecipients]
          rw [if_neg take7_ack]
        rw [hack, List.append_nil]
        exact updateRecipients_broadcast _

/-- C5 witness: a concrete successful registration broadcasts an UPDATE to
exactly the online records of the post-mutation table. -/
theorem claim_C5_witness :
    updateRecipients
        [(("9.9.9.9", 7), "WELCOME a 1.1.1.1 1024 2048 1 "),
         (("1.1.1.1", 1024), "UPDATE a 1.1.1.1 1024 2048 1 ")]
      = onlineAddrs [("a", { ip := "1.1.1.1", udp_port := 1024, tcp_port := 2048,
                             files := [], online := true })] :=
  (claim_C5_update_fanout []).2.1 ["a", "1.1.1.1", "1024", "2048"] ("9.9.9.9", 7)
    [("a", { ip := "1.1.1.1", udp_port := 1024, tcp_port := 2048,
             files := [], online := true })]
    [(("9.9.9.9", 7), "WELCOME a 1.1.1.1 1024 2048 1 "),
     (("1.1.1.1", 1024), "UPDATE a 1.1.1.1 1024 2048 1 ")]
    (by decide) (by decide)

/-- C10: the broadcast walks the whole table, so every record whose online
flag is false is sent `DISCONNECTED <name>` at its stored address — on
every broadcast, whatever mutating message triggered it, not only when that
peer just disconnected. -/
theorem claim_C10_disconnected_on_every_broadcast (t : Table) (name : String) (r : PeerRecord)
    (hmem : (name, r) ∈ t) (hoff : r.online = false) :
    ((r.ip, r.udp_port), "DISCONNECTED " ++ name) ∈ broadcast_table t := by
  unfold broadcast_table
  refine List.mem_map.mpr ⟨(name, r), hmem, ?_⟩
  simp [hoff]

/-- C10 witness: an offline record receives DISCONNECTED on a broadcast
triggered while another peer is online. -/
theorem claim_C10_witness :
    (("2.2.2.2", 1025), "DISCONNECTED b") ∈ broadcast_table
      [("a", { ip := "1.1.1.1", udp_port := 1024, tcp_port := 2048,
               files := [], online := true }),
       ("b", { ip := "2.2.2.2", udp_port := 1025, tcp_port := 2049,
               files := ["f"], online := false })] :=
  claim_C10_disconnected_on_every_broadcast
    [("a", { ip := "1.1.1.1", udp_port := 1024, tcp_port := 2048,
             files := [], online := true }),
     ("b", { ip := "2.2.2.2", udp_port := 1025, tcp_port := 2049,
             files := ["f"], online := false })] "b"
    { ip := "2.2.2.2", udp_port := 1025, tcp_port := 2049, files := ["f"], online := false }
    (by decide) rfl

end FileApp
